import Mathlib

/-!
# signal-estimator: the level dumper (`src/cli/FileDumper.cpp`)

A shallow embedding of `FileDumper`: the window reduction `find_max_by_abs`,
the quantisation and debounce/heartbeat logic of `write_subframe_`, the guarded
emission `print_last_maybe_`, the window loop of `write`, and `open` and
`close`.

Conventions of the embedding.

* `sample_t`, `nanoseconds_t`, `MaxPrintDelay`, `Config`, `Frame` and the member
  initialisers of `FileDumper` are declared in headers outside the two source
  files at hand (`Frame.hpp`, `Time.hpp`, `FileDumper.hpp`).  The width of
  `sample_t` and the value of `MaxPrintDelay` are taken as parameters (`Decls`).
* Samples and timestamps are `Int`.  A conversion to `sample_t` is an explicit
  two's complement reduction (`to_sample`).  `sample_t` is taken to be narrower
  than `int`, so `std::abs` and unary minus are computed in `int` without
  overflow; `size_t` values are `Nat` (they never exceed the magnitude of a
  sample).  Differences of timestamps are taken in `Int`.
* Output is the list of `fprintf` calls made, in order (`Line`); `Line.text`
  gives the characters of one call, the width of `long` being a parameter.
* `fopen` is a parameter of `open`: the environment's answer for a file name.
* A function returns `none` where the C++ has no defined result: a read outside
  the buffer, a division by zero, a loop that never ends.
-/

namespace signal_estimator

/-! ## Data model -/

/-- Direction tag of a frame (`IOType` of `Frame.hpp`). -/
inductive IOType where
  | Input
  | Output
deriving DecidableEq

/-- The two fields of `Config` that `FileDumper.cpp` reads. -/
structure Config where
  dump_frame : Nat
  dump_rounding : Nat
deriving DecidableEq

/-- Declarations of the missing headers, taken as parameters: the width in bits
of `sample_t` and the constant `FileDumper::MaxPrintDelay`. -/
structure Decls where
  sample_bits : Nat
  MaxPrintDelay : Int
deriving DecidableEq

/-- What `fp_` points to: the standard output or a file opened for writing. -/
inductive Stream where
  | stdout
  | file (filename : String)
deriving DecidableEq

/-- The members of `FileDumper`. `fp_ = none` is the null pointer. -/
structure FileDumper where
  config_ : Config
  fp_ : Option Stream
  last_printed_ts_ : Int
  last_ts_ : Int
  last_val_ : Int
deriving DecidableEq

/-- One `fprintf` call of `print_last_maybe_`: `type` tells which of the two
format strings was used (`Output` for "out", `Input` for "in"), `ts` and `val`
are `last_ts_` and `last_val_` as passed (before the casts to `unsigned long`
and `long`). -/
structure Line where
  type : IOType
  ts : Int
  val : Int
deriving DecidableEq

/-- What `FileDumper.cpp` uses of a `Frame`: its direction, its samples
(`data()`, `size()`), and the map from a sample offset to its hardware
timestamp. -/
structure Frame where
  io_type : IOType
  data : List Int
  hw_sample_time : Nat → Int

/-- Number of samples of the frame: `frame.size()`. -/
def Frame.size (frame : Frame) : Nat := frame.data.length

/-- One windowed level observation: what `write_subframe_` passes on from its
quantisation to its state update. -/
structure Observation where
  ts : Int
  type : IOType
  val : Int
deriving DecidableEq

/-- Modelled from the spec: the member initialisers of `FileDumper.hpp` are not
among the sources. A dumper starts with no destination and with
`last_printed_ts_`, `last_ts_`, `last_val_` zero ("no prior state yet"). -/
def FileDumper.init (config : Config) : FileDumper :=
  { config_ := config, fp_ := none, last_printed_ts_ := 0, last_ts_ := 0, last_val_ := 0 }

/-- The dumper after a successful `open` and before any `write`: the initial
members with `fp_` bound to a stream. -/
def FileDumper.opened (config : Config) (fp : Stream) : FileDumper :=
  { FileDumper.init config with fp_ := some fp }

/-- A sample value fits `sample_t` of the given width. -/
def in_sample_range (bits : Nat) (x : Int) : Prop :=
  -(2 ^ (bits - 1) : Int) ≤ x ∧ x < 2 ^ (bits - 1)

instance (bits : Nat) (x : Int) : Decidable (in_sample_range bits x) := by
  unfold in_sample_range; infer_instance

/-! ## `find_max_by_abs` -/

/-- Conversion of an `int` or `size_t` value to `sample_t`: reduction modulo
`2 ^ bits` into the signed range. -/
def to_sample (bits : Nat) (x : Int) : Int :=
  (x + 2 ^ (bits - 1)) % 2 ^ bits - 2 ^ (bits - 1)

/-- The loop of `find_max_by_abs` over the samples after `buf[0]`: a sample
replaces `max_val` only when its absolute value is strictly greater. -/
def find_max_by_abs_loop (max_val : Int) : List Int → Int
  | [] => max_val
  | x :: rest =>
    find_max_by_abs_loop (if x.natAbs > max_val.natAbs then x else max_val) rest

/-- `find_max_by_abs(buf, bufsz)`. `buf` is the memory from the pointer on;
`buf[0]` is read whatever `bufsz` is, then `buf[1] .. buf[bufsz - 1]`. -/
def find_max_by_abs (buf : List Int) (bufsz : Nat) : Option Int :=
  match buf with
  | [] => none
  | b0 :: rest =>
    if bufsz ≤ rest.length + 1 then
      some (find_max_by_abs_loop b0 (rest.take (bufsz - 1)))
    else none

/-! ## `print_last_maybe_` and `write_subframe_` -/

/-- `FileDumper::print_last_maybe_`: nothing when `last_ts_` is zero or was
already printed; otherwise one line with `last_ts_`, `last_val_`, labelled by
`type`, and `last_printed_ts_` becomes `last_ts_`. -/
def print_last_maybe_ (d : FileDumper) (type : IOType) : FileDumper × List Line :=
  if d.last_ts_ = 0 then (d, [])
  else if d.last_printed_ts_ = d.last_ts_ then (d, [])
  else
    ({ d with last_printed_ts_ := d.last_ts_ },
      [if type = IOType.Output then ⟨IOType.Output, d.last_ts_, d.last_val_⟩
       else ⟨IOType.Input, d.last_ts_, d.last_val_⟩])

/-- Lines 83-90 of `write_subframe_`: the quantisation of `max_val` to
`new_val`, with the casts to `size_t` and back to `sample_t`. -/
def subframe_new_val (bits : Nat) (dump_rounding : Nat) (max_val : Int) : Int :=
  if max_val ≥ 0 then
    to_sample bits ((max_val.toNat / dump_rounding * dump_rounding : Nat) : Int)
  else
    to_sample bits
      (-(to_sample bits (((-max_val).toNat / dump_rounding * dump_rounding : Nat) : Int)))

/-- Lines 92-103 of `write_subframe_`: the state update and the two guarded
emissions for the observation `(ts, type, new_val)`. -/
def subframe_update (P : Decls) (d : FileDumper) (ts : Int) (new_val : Int)
    (type : IOType) : FileDumper × List Line :=
  let changed : Bool := decide (new_val ≠ d.last_val_)
  let r1 :=
    if changed ∨ ts - d.last_printed_ts_ > P.MaxPrintDelay then print_last_maybe_ d type
    else (d, [])
  let d1 : FileDumper := { r1.1 with last_ts_ := ts, last_val_ := new_val }
  let r2 := if changed then print_last_maybe_ d1 type else (d1, [])
  (r2.1, r1.2 ++ r2.2)

/-- The condition under which the first call of `print_last_maybe_` in
`write_subframe_` writes the pending line. -/
def closes (P : Decls) (d : FileDumper) (ts new_val : Int) : Prop :=
  (new_val ≠ d.last_val_ ∨ ts - d.last_printed_ts_ > P.MaxPrintDelay) ∧
    d.last_ts_ ≠ 0 ∧ d.last_printed_ts_ ≠ d.last_ts_

instance (P : Decls) (d : FileDumper) (ts new_val : Int) : Decidable (closes P d ts new_val) := by
  unfold closes; infer_instance

/-- The condition under which the second call of `print_last_maybe_` in
`write_subframe_` writes the new observation. -/
def opens (P : Decls) (d : FileDumper) (ts new_val : Int) : Prop :=
  new_val ≠ d.last_val_ ∧ ts ≠ 0 ∧
    (if closes P d ts new_val then d.last_ts_ else d.last_printed_ts_) ≠ ts

instance (P : Decls) (d : FileDumper) (ts new_val : Int) : Decidable (opens P d ts new_val) := by
  unfold opens; infer_instance

/-- Lines 81-90 of `write_subframe_`: the level of a window. No result when
`find_max_by_abs` reads outside the buffer or `dump_rounding` is zero. -/
def subframe_level (P : Decls) (config : Config) (buf : List Int) (bufsz : Nat) :
    Option Int :=
  match find_max_by_abs buf bufsz with
  | none => none
  | some max_val =>
    if config.dump_rounding = 0 then none
    else some (subframe_new_val P.sample_bits config.dump_rounding max_val)

/-- `FileDumper::write_subframe_`. -/
def write_subframe_ (P : Decls) (d : FileDumper) (ts : Int) (buf : List Int)
    (bufsz : Nat) (type : IOType) : Option (FileDumper × List Line) :=
  match subframe_level P d.config_ buf bufsz with
  | none => none
  | some new_val => some (subframe_update P d ts new_val type)

/-! ## `write` -/

/-- The `for` loop of `FileDumper::write` from offset `off`, with at most `fuel`
iterations: `none` when a window has no result or the fuel runs out before
`off` reaches `frame.size()`. -/
def write_loop (P : Decls) (frame : Frame) : Nat → Nat → FileDumper →
    Option (FileDumper × List Line)
  | 0, off, d => if off < frame.size then none else some (d, [])
  | fuel + 1, off, d =>
    if off < frame.size then
      let subframe_ts := frame.hw_sample_time off
      let subframe_data := frame.data.drop off
      let subframe_sz := min d.config_.dump_frame (frame.size - off)
      match write_subframe_ P d subframe_ts subframe_data subframe_sz frame.io_type with
      | none => none
      | some (d1, out1) =>
        match write_loop P frame fuel (off + subframe_sz) d1 with
        | none => none
        | some (d2, out2) => some (d2, out1 ++ out2)
    else some (d, [])

/-- `FileDumper::write`: nothing when `fp_` is null, otherwise the window loop
from offset 0. Every iteration that returns advances `off` by at least one
sample unless `dump_frame` is zero, so `frame.size()` iterations are enough
whenever the loop ends at all. -/
def write (P : Decls) (d : FileDumper) (frame : Frame) : Option (FileDumper × List Line) :=
  if d.fp_ = none then some (d, [])
  else write_loop P frame frame.size 0 d

/-- A sequence of `write` calls, one per frame, in order. -/
def write_frames (P : Decls) : FileDumper → List Frame → Option (FileDumper × List Line)
  | d, [] => some (d, [])
  | d, frame :: rest =>
    match write P d frame with
    | none => none
    | some (d1, out1) =>
      match write_frames P d1 rest with
      | none => none
      | some (d2, out2) => some (d2, out1 ++ out2)

/-- A sequence of observations fed to lines 92-103 of `write_subframe_`, in
order, with the lines written. -/
def observe_all (P : Decls) : FileDumper → List Observation → FileDumper × List Line
  | d, [] => (d, [])
  | d, o :: rest =>
    let r1 := subframe_update P d o.ts o.val o.type
    let r2 := observe_all P r1.1 rest
    (r2.1, r1.2 ++ r2.2)

/-! ## The decision procedure as the specification words it (section 4.2) -/

/-- The specification's `DumperState`. -/
structure DumperState where
  lastLevel : Int
  lastObservedTimestamp : Int
  lastEmittedTimestamp : Int
deriving DecidableEq

/-- The specification's `LevelEvent`: an observation, and the unit emitted. -/
structure LevelEvent where
  timestamp : Int
  direction : IOType
  quantizedLevel : Int
deriving DecidableEq

/-- An emission attempt as the specification words it: a no-op when there is no
prior state yet (no timestamp recorded: `lastObservedTimestamp` still zero) or
when the pending timestamp was already emitted; otherwise the pending
timestamp and level are emitted for `direction`. -/
def spec_attempt_emit (s : DumperState) (direction : IOType) :
    DumperState × List LevelEvent :=
  if s.lastObservedTimestamp = 0 ∨ s.lastEmittedTimestamp = s.lastObservedTimestamp then
    (s, [])
  else
    ({ s with lastEmittedTimestamp := s.lastObservedTimestamp },
      [{ timestamp := s.lastObservedTimestamp, direction := direction,
         quantizedLevel := s.lastLevel }])

/-- The four-step decision procedure of the specification for one observation.
`measured_from s` is the timestamp the heartbeat delay is measured from. -/
def spec_decision_procedure (measured_from : DumperState → Int) (MaxPrintDelay : Int)
    (s : DumperState) (e : LevelEvent) : DumperState × List LevelEvent :=
  let changed : Bool := decide (e.quantizedLevel ≠ s.lastLevel)
  let step2 :=
    if changed ∨ e.timestamp - measured_from s > MaxPrintDelay then
      spec_attempt_emit s e.direction
    else (s, [])
  let step3 : DumperState :=
    { step2.1 with lastObservedTimestamp := e.timestamp, lastLevel := e.quantizedLevel }
  let step4 := if changed then spec_attempt_emit step3 e.direction else (step3, [])
  (step4.1, step2.2 ++ step4.2)

/-- The specification's view of the dumper's members. -/
def FileDumper.state (d : FileDumper) : DumperState :=
  { lastLevel := d.last_val_, lastObservedTimestamp := d.last_ts_,
    lastEmittedTimestamp := d.last_printed_ts_ }

/-- The specification's view of a written line. -/
def Line.event (l : Line) : LevelEvent :=
  { timestamp := l.ts, direction := l.type, quantizedLevel := l.val }

/-! ## `open` and `close` -/

/-- `FileDumper::open`. `fopen filename` stands for what `fopen(filename, "w")`
returns, `none` for a null pointer. `fp_` is assigned first, then tested; the
result is the value returned. The message of `se_log_error` is not modelled. -/
def FileDumper.open (fopen : String → Option Stream) (d : FileDumper) (filename : String) :
    FileDumper × Bool :=
  let d1 : FileDumper :=
    if filename = "-" then { d with fp_ := some Stream.stdout }
    else { d with fp_ := fopen filename }
  if d1.fp_ = none then (d1, false) else (d1, true)

/-- `FileDumper::close`: a bound stream is closed and `fp_` becomes null. -/
def FileDumper.close (d : FileDumper) : FileDumper :=
  if d.fp_ ≠ none then { d with fp_ := none } else d

/-! ## The text of a line -/

/-- The cast `(unsigned long)`: reduction modulo `2 ^ long_bits`, where
`long_bits` is the width of `long` on the platform. -/
def to_ulong (long_bits : Nat) (x : Int) : Nat := (x % 2 ^ long_bits).toNat

/-- The cast `(long)`: two's complement reduction to `long_bits` bits. -/
def to_long (long_bits : Nat) (x : Int) : Int := to_sample long_bits x

/-- The characters one `fprintf` call of `print_last_maybe_` writes: the format
"out %lu %ld\n" or "in %lu %ld\n" with the arguments `(unsigned long)last_ts_`
and `(long)last_val_`, `%lu` and `%ld` being decimal without padding. -/
def Line.text (long_bits : Nat) (l : Line) : String :=
  if l.type = IOType.Output then
    "out " ++ toString (to_ulong long_bits l.ts) ++ " " ++
      toString (to_long long_bits l.val) ++ "\n"
  else
    "in " ++ toString (to_ulong long_bits l.ts) ++ " " ++
      toString (to_long long_bits l.val) ++ "\n"

/-- The direction label of the specification: `in` for `Input`, `out` for
`Output`. -/
def IOType.label (type : IOType) : String :=
  match type with
  | IOType.Input => "in"
  | IOType.Output => "out"

/-! ## The windows of a frame -/

/-- The windows at the listed offsets handed to `write_subframe_` one after the
other: the window at `off` is stamped `hw_sample_time(off)`, starts at
`data() + off` and has `min(dump_frame, size() - off)` samples. -/
def process_windows (P : Decls) (frame : Frame) : List Nat → FileDumper →
    Option (FileDumper × List Line)
  | [], d => some (d, [])
  | off :: rest, d =>
    match write_subframe_ P d (frame.hw_sample_time off) (frame.data.drop off)
        (min d.config_.dump_frame (frame.size - off)) frame.io_type with
    | none => none
    | some (d1, out1) =>
      match process_windows P frame rest d1 with
      | none => none
      | some (d2, out2) => some (d2, out1 ++ out2)

/-- The offsets `off, off + w, off + 2 * w, ...` below `n`. -/
def window_offsets (n w off : Nat) : List Nat :=
  (List.range ((n - off + w - 1) / w)).map (fun k => off + k * w)

/-! # Theorems -/

/-! ## `find_max_by_abs` -/

theorem find_max_by_abs_loop_spec (l : List Int) : ∀ m0 : Int,
    (∀ x ∈ l, x.natAbs ≤ (find_max_by_abs_loop m0 l).natAbs) ∧
    m0.natAbs ≤ (find_max_by_abs_loop m0 l).natAbs ∧
    (find_max_by_abs_loop m0 l = m0 ∨
      ∃ k : Nat, l[k]? = some (find_max_by_abs_loop m0 l) ∧
        m0.natAbs < (find_max_by_abs_loop m0 l).natAbs ∧
        ∀ (j : Nat) (x : Int), j < k → l[j]? = some x → x.natAbs < (find_max_by_abs_loop m0 l).natAbs) := by
  induction l with
  | nil => intro m0; simp [find_max_by_abs_loop]
  | cons a rest ih =>
    intro m0
    simp only [find_max_by_abs_loop]
    obtain ⟨hall, hge, hpos⟩ := ih (if a.natAbs > m0.natAbs then a else m0)
    have hm1 : m0.natAbs ≤ (if a.natAbs > m0.natAbs then a else m0).natAbs ∧
        a.natAbs ≤ (if a.natAbs > m0.natAbs then a else m0).natAbs := by
      split <;> omega
    refine ⟨?_, by omega, ?_⟩
    · intro x hx
      rcases List.mem_cons.mp hx with rfl | hx
      · omega
      · exact hall x hx
    · rcases hpos with heq | ⟨k, hk, hlt, hbefore⟩
      · by_cases hc : a.natAbs > m0.natAbs
        · right
          refine ⟨0, ?_, ?_, ?_⟩
          · rw [heq, if_pos hc]; exact List.getElem?_cons_zero
          · rw [heq, if_pos hc]; exact hc
          · intro j x hj; omega
        · left
          rw [heq, if_neg hc]
      · right
        refine ⟨k + 1, ?_, by omega, ?_⟩
        · rw [List.getElem?_cons_succ]; exact hk
        · intro j x hj hx
          cases j with
          | zero =>
            rw [List.getElem?_cons_zero] at hx
            cases hx
            omega
          | succ j =>
            rw [List.getElem?_cons_succ] at hx
            exact hbefore j x (by omega) hx

theorem find_max_by_abs_mem (buf : List Int) (bufsz : Nat) (m : Int) (h1 : 1 ≤ bufsz)
    (hm : find_max_by_abs buf bufsz = some m) : m ∈ buf.take bufsz := by
  cases buf with
  | nil => simp [find_max_by_abs] at hm
  | cons b0 rest =>
    obtain ⟨n, rfl⟩ : ∃ n, bufsz = n + 1 := ⟨bufsz - 1, by omega⟩
    simp only [find_max_by_abs] at hm
    split_ifs at hm
    simp only [Option.some.injEq, Nat.add_sub_cancel] at hm
    subst hm
    rw [List.take_succ_cons]
    rcases (find_max_by_abs_loop_spec (rest.take n) b0).2.2 with heq | ⟨k, hk, -, -⟩
    · rw [heq]; exact List.mem_cons_self _ _
    · exact List.mem_cons_of_mem _ (List.getElem?_mem hk)

theorem find_max_by_abs_returns (buf : List Int) (bufsz : Nat) (h1 : 1 ≤ bufsz)
    (h2 : bufsz ≤ buf.length) : ∃ m, find_max_by_abs buf bufsz = some m := by
  cases buf with
  | nil => simp at h2; omega
  | cons b0 rest =>
    simp only [List.length_cons] at h2
    exact ⟨find_max_by_abs_loop b0 (rest.take (bufsz - 1)), by simp [find_max_by_abs, h2]⟩

/-! ## The conversion to `sample_t` and the quantisation -/

theorem two_pow_sample_bits (bits : Nat) (h : 1 ≤ bits) :
    (2 : Int) ^ bits = 2 * 2 ^ (bits - 1) := by
  obtain ⟨k, rfl⟩ : ∃ k, bits = k + 1 := ⟨bits - 1, by omega⟩
  simp only [Nat.add_sub_cancel, pow_succ]
  ring

theorem to_sample_of_in_range (bits : Nat) (x : Int) (h : 1 ≤ bits)
    (hx : in_sample_range bits x) : to_sample bits x = x := by
  unfold to_sample
  rw [two_pow_sample_bits bits h]
  obtain ⟨h1, h2⟩ := hx
  generalize (2 : Int) ^ (bits - 1) = H at *
  rw [Int.emod_eq_of_lt (by omega) (by omega)]
  omega

theorem to_sample_half (bits : Nat) (h : 1 ≤ bits) :
    to_sample bits (2 ^ (bits - 1)) = -2 ^ (bits - 1) := by
  unfold to_sample
  rw [two_pow_sample_bits bits h]
  have h2 : (2 : Int) ^ (bits - 1) + 2 ^ (bits - 1) = 2 * 2 ^ (bits - 1) := by ring
  rw [h2, Int.emod_self]
  omega

theorem subframe_new_val_eq (bits r : Nat) (m : Int) (h : 1 ≤ bits)
    (hm : in_sample_range bits m) :
    subframe_new_val bits r m = m.sign * ((m.natAbs / r * r : Nat) : Int) := by
  have hq : m.natAbs / r * r ≤ m.natAbs := Nat.div_mul_le_self _ _
  have hpos : (0 : Int) < 2 ^ (bits - 1) := by positivity
  obtain ⟨h1, h2⟩ := hm
  unfold subframe_new_val
  by_cases hge : m ≥ 0
  · rw [if_pos hge]
    have habs : m.toNat = m.natAbs := by omega
    rw [habs, to_sample_of_in_range bits _ h ⟨by omega, by omega⟩]
    rcases lt_or_eq_of_le hge with hlt | heq
    · rw [Int.sign_eq_one_of_pos hlt]; simp
    · rw [← heq]; simp
  · rw [if_neg hge]
    have habs : (-m).toNat = m.natAbs := by omega
    rw [habs, Int.sign_eq_neg_one_of_neg (by omega)]
    by_cases hhalf : ((m.natAbs / r * r : Nat) : Int) = 2 ^ (bits - 1)
    · rw [hhalf, to_sample_half bits h, neg_neg, to_sample_half bits h]
      simp
    · have hlt : ((m.natAbs / r * r : Nat) : Int) < 2 ^ (bits - 1) := by omega
      rw [to_sample_of_in_range bits _ h ⟨by omega, hlt⟩,
        to_sample_of_in_range bits _ h ⟨by omega, by omega⟩]
      simp

theorem subframe_new_val_in_range (bits r : Nat) (x : Int) (h : 1 ≤ bits)
    (hx : in_sample_range bits x) : in_sample_range bits (subframe_new_val bits r x) := by
  rw [subframe_new_val_eq bits r x h hx]
  have hq : x.natAbs / r * r ≤ x.natAbs := Nat.div_mul_le_self _ _
  obtain ⟨h1, h2⟩ := hx
  unfold in_sample_range
  generalize (2 : Int) ^ (bits - 1) = H at *
  generalize x.natAbs / r * r = k at *
  rcases lt_trichotomy x 0 with hneg | hzero | hpos
  · rw [Int.sign_eq_neg_one_of_neg hneg]
    constructor <;> omega
  · subst hzero
    simp only [Int.sign_zero, zero_mul]
    constructor <;> omega
  · rw [Int.sign_eq_one_of_pos hpos]
    constructor <;> omega

theorem natAbs_sign_mul (x : Int) (k : Nat) (hk : x = 0 → k = 0) :
    (x.sign * (k : Int)).natAbs = k := by
  rcases lt_trichotomy x 0 with hneg | hzero | hpos
  · rw [Int.sign_eq_neg_one_of_neg hneg]; omega
  · rw [hk hzero]; simp
  · rw [Int.sign_eq_one_of_pos hpos]; omega

/-! ## `print_last_maybe_` and the state update in closed form -/

theorem print_last_maybe_fields (d : FileDumper) (type : IOType) :
    (print_last_maybe_ d type).1.last_ts_ = d.last_ts_ ∧
    (print_last_maybe_ d type).1.last_val_ = d.last_val_ ∧
    (print_last_maybe_ d type).1.config_ = d.config_ ∧
    (print_last_maybe_ d type).1.fp_ = d.fp_ := by
  unfold print_last_maybe_
  split_ifs <;> simp

theorem subframe_update_fields (P : Decls) (d : FileDumper) (ts new_val : Int)
    (type : IOType) :
    (subframe_update P d ts new_val type).1.last_ts_ = ts ∧
    (subframe_update P d ts new_val type).1.last_val_ = new_val ∧
    (subframe_update P d ts new_val type).1.config_ = d.config_ ∧
    (subframe_update P d ts new_val type).1.fp_ = d.fp_ := by
  simp only [subframe_update]
  split_ifs <;> simp [print_last_maybe_fields]

theorem print_last_maybe_eq (d : FileDumper) (type : IOType) :
    print_last_maybe_ d type =
      if d.last_ts_ = 0 ∨ d.last_printed_ts_ = d.last_ts_ then (d, [])
      else ({ d with last_printed_ts_ := d.last_ts_ }, [⟨type, d.last_ts_, d.last_val_⟩]) := by
  unfold print_last_maybe_
  cases type <;> split_ifs <;> simp_all

theorem print_last_maybe_fst (d : FileDumper) (type : IOType) :
    (print_last_maybe_ d type).1 =
      { d with last_printed_ts_ :=
          if d.last_ts_ ≠ 0 ∧ d.last_printed_ts_ ≠ d.last_ts_ then d.last_ts_
          else d.last_printed_ts_ } := by
  rw [print_last_maybe_eq]
  split_ifs <;> first | rfl | (exfalso; tauto)

theorem print_last_maybe_snd (d : FileDumper) (type : IOType) :
    (print_last_maybe_ d type).2 =
      if d.last_ts_ ≠ 0 ∧ d.last_printed_ts_ ≠ d.last_ts_ then [⟨type, d.last_ts_, d.last_val_⟩]
      else [] := by
  rw [print_last_maybe_eq]
  split_ifs <;> first | rfl | (exfalso; tauto)

theorem print_last_maybe_line (d : FileDumper) (type : IOType) (l : Line)
    (hl : l ∈ (print_last_maybe_ d type).2) :
    l = ⟨type, d.last_ts_, d.last_val_⟩ ∧ d.last_ts_ ≠ 0 ∧ d.last_printed_ts_ ≠ d.last_ts_ := by
  rw [print_last_maybe_snd] at hl
  split_ifs at hl with h
  · exact ⟨List.mem_singleton.mp hl, h⟩
  · simp at hl

theorem subframe_update_eq (P : Decls) (d : FileDumper) (ts new_val : Int) (type : IOType) :
    subframe_update P d ts new_val type =
      ({ config_ := d.config_, fp_ := d.fp_,
         last_printed_ts_ :=
           if opens P d ts new_val then ts
           else if closes P d ts new_val then d.last_ts_ else d.last_printed_ts_,
         last_ts_ := ts, last_val_ := new_val },
       (if closes P d ts new_val then [⟨type, d.last_ts_, d.last_val_⟩] else []) ++
         (if opens P d ts new_val then [⟨type, ts, new_val⟩] else [])) := by
  have hr1 : (if (decide (new_val ≠ d.last_val_) : Bool) = true ∨
        ts - d.last_printed_ts_ > P.MaxPrintDelay then print_last_maybe_ d type else (d, []))
      = ({ d with last_printed_ts_ :=
            if closes P d ts new_val then d.last_ts_ else d.last_printed_ts_ },
          if closes P d ts new_val then [⟨type, d.last_ts_, d.last_val_⟩] else []) := by
    rw [print_last_maybe_eq]
    unfold closes
    split_ifs <;> first | rfl | (exfalso; simp_all)
  have hr2 : ∀ e : FileDumper, e.last_ts_ = ts → e.last_val_ = new_val →
      (if (decide (new_val ≠ d.last_val_) : Bool) = true then print_last_maybe_ e type
        else (e, []))
      = ({ e with last_printed_ts_ :=
            if new_val ≠ d.last_val_ ∧ ts ≠ 0 ∧ e.last_printed_ts_ ≠ ts then ts
            else e.last_printed_ts_ },
          if new_val ≠ d.last_val_ ∧ ts ≠ 0 ∧ e.last_printed_ts_ ≠ ts then [⟨type, ts, new_val⟩]
          else []) := by
    intro e h1 h2
    obtain ⟨cfg, fp, lp, lt, lv⟩ := e
    simp only at h1 h2
    subst h1 h2
    rw [print_last_maybe_eq]
    split_ifs <;> first | rfl | (exfalso; simp_all)
  unfold subframe_update
  simp only []
  rw [hr1, hr2 _ rfl rfl]
  unfold opens
  rfl

theorem subframe_update_same (P : Decls) (d : FileDumper) (ts : Int) (type : IOType) :
    subframe_update P d ts d.last_val_ type =
      if ts - d.last_printed_ts_ > P.MaxPrintDelay ∧ d.last_ts_ ≠ 0 ∧
          d.last_printed_ts_ ≠ d.last_ts_ then
        ({ d with last_printed_ts_ := d.last_ts_, last_ts_ := ts },
          [⟨type, d.last_ts_, d.last_val_⟩])
      else ({ d with last_ts_ := ts }, []) := by
  rw [subframe_update_eq]
  have hop : ¬ opens P d ts d.last_val_ := by
    unfold opens
    rintro ⟨h, -, -⟩
    exact h rfl
  have hcl : closes P d ts d.last_val_ ↔ ts - d.last_printed_ts_ > P.MaxPrintDelay ∧
      d.last_ts_ ≠ 0 ∧ d.last_printed_ts_ ≠ d.last_ts_ := by
    unfold closes
    constructor
    · rintro ⟨h | h, h2⟩
      · exact absurd rfl h
      · exact ⟨h, h2⟩
    · rintro ⟨h, h2⟩
      exact ⟨Or.inr h, h2⟩
  simp only [if_neg hop, List.append_nil]
  by_cases h : closes P d ts d.last_val_
  · rw [if_pos h, if_pos h, if_pos (hcl.mp h)]
  · rw [if_neg h, if_neg h, if_neg (fun h2 => h (hcl.mpr h2))]

theorem subframe_update_line_type (P : Decls) (d : FileDumper) (ts new_val : Int)
    (type : IOType) : ∀ l ∈ (subframe_update P d ts new_val type).2, l.type = type := by
  intro l hl
  rw [subframe_update_eq] at hl
  simp only at hl
  rcases List.mem_append.mp hl with h | h
  · split_ifs at h
    · rw [List.mem_singleton.mp h]
    · simp at h
  · split_ifs at h
    · rw [List.mem_singleton.mp h]
    · simp at h

theorem subframe_update_length_le (P : Decls) (d : FileDumper) (ts new_val : Int)
    (type : IOType) : (subframe_update P d ts new_val type).2.length ≤ 2 := by
  rw [subframe_update_eq]
  simp only [List.length_append]
  split_ifs <;> simp

theorem opened_first_step (P : Decls) (config : Config) (fp : Stream) (o : Observation)
    (h0 : 0 < o.ts) :
    subframe_update P (FileDumper.opened config fp) o.ts o.val o.type =
      if o.val = 0 then (⟨config, some fp, 0, o.ts, o.val⟩, [])
      else (⟨config, some fp, o.ts, o.ts, o.val⟩, [⟨o.type, o.ts, o.val⟩]) := by
  have hcl : ¬ closes P (FileDumper.opened config fp) o.ts o.val := by
    simp [closes, FileDumper.opened, FileDumper.init]
  have hop : opens P (FileDumper.opened config fp) o.ts o.val ↔ ¬ o.val = 0 := by
    simp only [opens, if_neg hcl]
    simp only [FileDumper.opened, FileDumper.init]
    constructor
    · rintro ⟨h1, -, -⟩; exact h1
    · intro h; exact ⟨h, by omega, by omega⟩
  rw [subframe_update_eq]
  simp only [if_neg hcl, List.nil_append]
  by_cases h : o.val = 0
  · rw [if_pos h, if_neg (fun h2 => (hop.mp h2) h), if_neg (fun h2 => (hop.mp h2) h)]
    rfl
  · rw [if_neg h, if_pos (hop.mpr h), if_pos (hop.mpr h)]
    rfl

/-! ## The decision procedure of the specification -/

theorem spec_attempt_emit_state (d : FileDumper) (type : IOType) :
    spec_attempt_emit d.state type =
      ((print_last_maybe_ d type).1.state, (print_last_maybe_ d type).2.map Line.event) := by
  rw [print_last_maybe_eq]
  unfold spec_attempt_emit FileDumper.state
  split_ifs <;> simp_all [Line.event]

theorem subframe_update_refines (P : Decls) (d : FileDumper) (ts : Int) (type : IOType)
    (new_val : Int) :
    spec_decision_procedure (fun s => s.lastEmittedTimestamp) P.MaxPrintDelay
        d.state ⟨ts, type, new_val⟩ =
      ((subframe_update P d ts new_val type).1.state,
        (subframe_update P d ts new_val type).2.map Line.event) := by
  have key : ∀ e : FileDumper,
      spec_attempt_emit ⟨new_val, ts, e.last_printed_ts_⟩ type =
        ((print_last_maybe_ { e with last_ts_ := ts, last_val_ := new_val } type).1.state,
          (print_last_maybe_ { e with last_ts_ := ts, last_val_ := new_val } type).2.map
            Line.event) :=
    fun e => spec_attempt_emit_state { e with last_ts_ := ts, last_val_ := new_val } type
  have key0 : spec_attempt_emit ⟨d.last_val_, d.last_ts_, d.last_printed_ts_⟩ type =
      ((print_last_maybe_ d type).1.state, (print_last_maybe_ d type).2.map Line.event) :=
    spec_attempt_emit_state d type
  by_cases hchg : new_val = d.last_val_
  · by_cases hb : ts - d.last_printed_ts_ > P.MaxPrintDelay
    · simp [spec_decision_procedure, subframe_update, hchg, hb, key0, FileDumper.state]
    · simp [spec_decision_procedure, subframe_update, hchg, hb, FileDumper.state]
  · have h1 := key (print_last_maybe_ d type).1
    simp [spec_decision_procedure, subframe_update, hchg, key0, h1, FileDumper.state]

/-- The two procedures differ whatever the value of `MaxPrintDelay`: last line
at 1, pending observation `(2, 20)`, observation `(MaxPrintDelay + 2, 20)`. -/
theorem heartbeat_reference_matters (bits : Nat) (D : Int) :
    (subframe_update ⟨bits, D⟩ ⟨⟨1, 1⟩, some Stream.stdout, 1, 2, 20⟩ (D + 2) 20
        IOType.Input).2 = [⟨IOType.Input, 2, 20⟩] ∧
    (spec_decision_procedure (fun s => s.lastObservedTimestamp) D ⟨20, 2, 1⟩
        ⟨D + 2, IOType.Input, 20⟩).2 = [] := by
  constructor
  · rw [subframe_update_same ⟨bits, D⟩ ⟨⟨1, 1⟩, some Stream.stdout, 1, 2, 20⟩]
    rw [if_pos ⟨by simp only; omega, by simp only; omega, by simp only; omega⟩]
  · simp [spec_decision_procedure]

/-! ## Runs of observations -/

theorem observe_all_append (P : Decls) (l1 l2 : List Observation) : ∀ d : FileDumper,
    observe_all P d (l1 ++ l2) =
      ((observe_all P (observe_all P d l1).1 l2).1,
        (observe_all P d l1).2 ++ (observe_all P (observe_all P d l1).1 l2).2) := by
  induction l1 with
  | nil => intro d; simp [observe_all]
  | cons o rest ih =>
    intro d
    rw [List.cons_append]
    simp only [observe_all]
    rw [ih, List.append_assoc]

theorem observe_all_single (P : Decls) (d : FileDumper) (o : Observation) :
    observe_all P d [o] = subframe_update P d o.ts o.val o.type := by
  simp [observe_all]

theorem observe_all_snoc_fields (P : Decls) (d : FileDumper) (pre : List Observation)
    (p : Observation) :
    (observe_all P d (pre ++ [p])).1 =
      (subframe_update P (observe_all P d pre).1 p.ts p.val p.type).1 ∧
    (observe_all P d (pre ++ [p])).1.last_ts_ = p.ts ∧
    (observe_all P d (pre ++ [p])).1.last_val_ = p.val := by
  rw [observe_all_append, observe_all_single]
  exact ⟨rfl, (subframe_update_fields P _ p.ts p.val p.type).1,
    (subframe_update_fields P _ p.ts p.val p.type).2.1⟩

theorem observe_all_last_ts (P : Decls) (d : FileDumper) (obs : List Observation)
    (last : Observation) (h : obs.getLast? = some last) :
    (observe_all P d obs).1.last_ts_ = last.ts := by
  rcases List.eq_nil_or_concat obs with hnil | ⟨pre, p, hp⟩
  · subst hnil; simp at h
  · subst hp
    rw [List.concat_eq_append] at h ⊢
    rw [List.getLast?_concat] at h
    cases h
    exact (observe_all_snoc_fields P d pre _).2.1

/-- Positive, strictly increasing timestamps, as a chain from the timestamp 0 of
the initial state. -/
theorem chain_of_increasing (obs : List Observation) (hpos : ∀ o ∈ obs, 0 < o.ts)
    (hinc : obs.Pairwise (fun a b => a.ts < b.ts)) :
    List.Chain (fun a b : Int => a < b) 0 (obs.map (fun o => o.ts)) := by
  rw [List.chain_iff_pairwise, List.pairwise_cons]
  refine ⟨?_, ?_⟩
  · intro b hb
    obtain ⟨o, ho, rfl⟩ := List.mem_map.mp hb
    exact hpos o ho
  · rw [List.pairwise_map]; exact hinc

theorem chain_increasing_within (D : Int) : ∀ (l : List Observation) (t : Int),
    List.Chain (fun a b : Int => a < b) t (l.map (fun o => o.ts)) →
    (∀ o ∈ l.head?, o.ts - t ≤ D) →
    l.Chain' (fun a b => b.ts - a.ts ≤ D) →
    List.Chain (fun a b : Int => a < b ∧ b - a ≤ D) t (l.map (fun o => o.ts)) := by
  intro l
  induction l with
  | nil => intro t _ _ _; exact List.Chain.nil
  | cons o rest ih =>
    intro t hinc hhead hgap
    simp only [List.map_cons, List.chain_cons] at hinc ⊢
    refine ⟨⟨hinc.1, hhead o (by simp)⟩, ih o.ts hinc.2 ?_ ?_⟩
    · cases rest with
      | nil => simp
      | cons o2 rest2 =>
        intro x hx
        simp only [List.head?_cons, Option.mem_def, Option.some.injEq] at hx
        subst hx
        exact (List.chain'_cons.mp hgap).1
    · cases rest with
      | nil => exact List.chain'_nil
      | cons _ _ => exact (List.chain'_cons.mp hgap).2

theorem subframe_update_printed_le (P : Decls) (d : FileDumper) (ts new_val : Int)
    (type : IOType) (h1 : d.last_printed_ts_ ≤ d.last_ts_) (h2 : d.last_ts_ ≤ ts) :
    (subframe_update P d ts new_val type).1.last_printed_ts_ ≤ ts := by
  rw [subframe_update_eq]
  simp only
  split_ifs <;> omega

theorem observe_all_printed_le (P : Decls) (obs : List Observation) : ∀ d : FileDumper,
    d.last_printed_ts_ ≤ d.last_ts_ →
    List.Chain (fun a b : Int => a < b) d.last_ts_ (obs.map (fun o => o.ts)) →
    (observe_all P d obs).1.last_printed_ts_ ≤ (observe_all P d obs).1.last_ts_ := by
  induction obs with
  | nil => intro d h _; simpa [observe_all] using h
  | cons o rest ih =>
    intro d h hch
    simp only [List.map_cons, List.chain_cons] at hch
    simp only [observe_all]
    apply ih
    · rw [(subframe_update_fields P d o.ts o.val o.type).1]
      exact subframe_update_printed_le P d o.ts o.val o.type h (by omega)
    · rw [(subframe_update_fields P d o.ts o.val o.type).1]
      exact hch.2

/-- The state in which an observation of a positive, strictly increasing stream
is processed: nothing is printed beyond the pending timestamp, which is
non-negative and earlier than the observation. -/
theorem state_before_observation (P : Decls) (config : Config) (fp : Stream)
    (obs pre post : List Observation) (o : Observation)
    (hpos : ∀ o ∈ obs, 0 < o.ts) (hinc : obs.Pairwise (fun a b => a.ts < b.ts))
    (hsplit : obs = pre ++ o :: post) :
    (observe_all P (FileDumper.opened config fp) pre).1.last_printed_ts_ ≤
      (observe_all P (FileDumper.opened config fp) pre).1.last_ts_ ∧
    0 ≤ (observe_all P (FileDumper.opened config fp) pre).1.last_ts_ ∧
    (observe_all P (FileDumper.opened config fp) pre).1.last_ts_ < o.ts := by
  subst hsplit
  have hpre : List.Chain (fun a b : Int => a < b) 0 (pre.map (fun o => o.ts)) :=
    chain_of_increasing pre (fun x hx => hpos x (List.mem_append_left _ hx))
      (List.pairwise_append.mp hinc).1
  have hle := observe_all_printed_le P pre (FileDumper.opened config fp) (le_refl _) hpre
  have ho : 0 < o.ts := hpos o (by simp)
  refine ⟨hle, ?_⟩
  rcases List.eq_nil_or_concat pre with hnil | ⟨pre1, p, hp⟩
  · subst hnil
    simp only [observe_all, FileDumper.opened, FileDumper.init]
    omega
  · subst hp
    rw [List.concat_eq_append] at *
    rw [(observe_all_snoc_fields P _ pre1 p).2.1]
    have hp0 : 0 < p.ts := hpos p (by simp)
    have hlt : p.ts < o.ts :=
      (List.pairwise_append.mp hinc).2.2 p (by simp) o (by simp)
    omega

theorem observe_all_adjacent (P : Decls) (obs : List Observation) : ∀ d : FileDumper,
    (observe_all P d obs).2.Chain' (fun a b => a.ts ≠ b.ts) ∧
      ∀ l ∈ (observe_all P d obs).2.head?, l.ts ≠ d.last_printed_ts_ := by
  induction obs with
  | nil => intro d; simp [observe_all]
  | cons o rest ih =>
    intro d
    obtain ⟨hch, hhead⟩ := ih (subframe_update P d o.ts o.val o.type).1
    simp only [observe_all]
    rw [subframe_update_eq] at hch hhead ⊢
    simp only at hch hhead ⊢
    by_cases hcl : closes P d o.ts o.val <;> by_cases hop : opens P d o.ts o.val
    · simp only [if_pos hcl, if_pos hop] at hch hhead ⊢
      have h1 : d.last_ts_ ≠ o.ts := by
        have := hop.2.2
        rwa [if_pos hcl] at this
      refine ⟨?_, ?_⟩
      · simp only [List.cons_append, List.nil_append]
        refine List.Chain'.cons' (List.Chain'.cons' hch ?_) ?_
        · intro y hy; exact fun h => hhead y hy h.symm
        · intro y hy
          simp only [List.head?_cons, Option.mem_def, Option.some.injEq] at hy
          subst hy
          exact h1
      · intro l hl
        simp only [List.cons_append, List.head?_cons, Option.mem_def,
          Option.some.injEq] at hl
        subst hl
        exact fun h => hcl.2.2 h.symm
    · simp only [if_pos hcl, if_neg hop, List.append_nil] at hch hhead ⊢
      refine ⟨?_, ?_⟩
      · simp only [List.cons_append, List.nil_append]
        refine List.Chain'.cons' hch ?_
        intro y hy; exact fun h => hhead y hy h.symm
      · intro l hl
        simp only [List.cons_append, List.head?_cons, Option.mem_def,
          Option.some.injEq] at hl
        subst hl
        exact fun h => hcl.2.2 h.symm
    · simp only [if_neg hcl, if_pos hop, List.nil_append] at hch hhead ⊢
      have h1 : d.last_printed_ts_ ≠ o.ts := by
        have := hop.2.2
        rwa [if_neg hcl] at this
      refine ⟨?_, ?_⟩
      · simp only [List.cons_append, List.nil_append]
        refine List.Chain'.cons' hch ?_
        intro y hy; exact fun h => hhead y hy h.symm
      · intro l hl
        simp only [List.cons_append, List.head?_cons, Option.mem_def,
          Option.some.injEq] at hl
        subst hl
        exact fun h => h1 h.symm
    · simp only [if_neg hcl, if_neg hop, List.nil_append] at hch hhead ⊢
      exact ⟨hch, hhead⟩

theorem observe_all_line_type (P : Decls) (obs : List Observation) : ∀ (d : FileDumper),
    ∀ l ∈ (observe_all P d obs).2, ∃ o ∈ obs, l.type = o.type := by
  induction obs with
  | nil => intro d l hl; simp [observe_all] at hl
  | cons o rest ih =>
    intro d l hl
    simp only [observe_all] at hl
    rcases List.mem_append.mp hl with h | h
    · rw [subframe_update_eq] at h
      simp only at h
      refine ⟨o, by simp, ?_⟩
      rcases List.mem_append.mp h with h | h
      · split_ifs at h
        · simp only [List.mem_singleton] at h; rw [h]
        · simp at h
      · split_ifs at h
        · simp only [List.mem_singleton] at h; rw [h]
        · simp at h
    · obtain ⟨o2, ho2, h2⟩ := ih _ l h
      exact ⟨o2, by simp [ho2], h2⟩

theorem observe_all_ts_ne_zero (P : Decls) (obs : List Observation) : ∀ d : FileDumper,
    ∀ l ∈ (observe_all P d obs).2, l.ts ≠ 0 := by
  induction obs with
  | nil => intro d l hl; simp [observe_all] at hl
  | cons o rest ih =>
    intro d l hl
    simp only [observe_all] at hl
    rcases List.mem_append.mp hl with h | h
    · rw [subframe_update_eq] at h
      simp only at h
      rcases List.mem_append.mp h with h | h
      · split_ifs at h with hc
        · rw [List.mem_singleton.mp h]; exact hc.2.1
        · simp at h
      · split_ifs at h with hc
        · rw [List.mem_singleton.mp h]; exact hc.2.1
        · simp at h
    · exact ih _ l h

/-- From any state, the `(timestamp, level)` pairs of the lines of a run are a
subsequence of the pending pair followed by the observed pairs, and of the
observed pairs alone when the pending pair is the sentinel or already printed. -/
theorem observe_all_sublist (P : Decls) (obs : List Observation) : ∀ d : FileDumper,
    ((observe_all P d obs).2.map (fun l => (l.ts, l.val))).Sublist
        ((d.last_ts_, d.last_val_) :: obs.map (fun o => (o.ts, o.val))) ∧
      ((d.last_ts_ = 0 ∨ d.last_printed_ts_ = d.last_ts_) →
        ((observe_all P d obs).2.map (fun l => (l.ts, l.val))).Sublist
          (obs.map (fun o => (o.ts, o.val)))) := by
  induction obs with
  | nil => intro d; simp [observe_all]
  | cons o rest ih =>
    intro d
    obtain ⟨ih1, ih2⟩ := ih (subframe_update P d o.ts o.val o.type).1
    simp only [observe_all, List.map_append, List.map_cons]
    rw [subframe_update_eq] at ih1 ih2 ⊢
    simp only at ih1 ih2 ⊢
    by_cases hcl : closes P d o.ts o.val <;> by_cases hop : opens P d o.ts o.val
    · simp only [if_pos hcl, if_pos hop] at ih1 ih2 ⊢
      have hrest := ih2 (Or.inr trivial)
      refine ⟨?_, ?_⟩
      · simp only [List.map_cons, List.map_nil, List.cons_append, List.nil_append]
        exact (List.cons_sublist_cons.mpr (List.cons_sublist_cons.mpr hrest))
      · intro h
        exfalso
        rcases h with h | h
        · exact hcl.2.1 h
        · exact hcl.2.2 h
    · simp only [if_pos hcl, if_neg hop] at ih1 ih2 ⊢
      refine ⟨?_, ?_⟩
      · simp only [List.map_cons, List.map_nil, List.cons_append, List.nil_append]
        exact List.cons_sublist_cons.mpr ih1
      · intro h
        exfalso
        rcases h with h | h
        · exact hcl.2.1 h
        · exact hcl.2.2 h
    · simp only [if_neg hcl, if_pos hop] at ih1 ih2 ⊢
      have hrest := ih2 (Or.inr trivial)
      simp only [List.map_cons, List.map_nil, List.cons_append, List.nil_append]
      exact ⟨List.sublist_cons_of_sublist _ (List.cons_sublist_cons.mpr hrest),
        fun _ => List.cons_sublist_cons.mpr hrest⟩
    · simp only [if_neg hcl, if_neg hop] at ih1 ih2 ⊢
      simp only [List.map_nil, List.nil_append]
      exact ⟨List.sublist_cons_of_sublist _ ih1, fun _ => ih1⟩

/-! ## Runs of one level -/

/-- Lines of a run at one level `L`, from a state that already holds `L`: they
are increasing, at most `MaxPrintDelay` apart, and the first one is later than
the last line printed before, and no more than `MaxPrintDelay` later when there
is one. -/
theorem same_level_run_chain (P : Decls) (L : Int) (obs : List Observation) :
    ∀ d : FileDumper, d.last_val_ = L → 0 ≤ d.last_printed_ts_ →
    d.last_printed_ts_ ≤ d.last_ts_ →
    (d.last_printed_ts_ ≠ 0 → d.last_printed_ts_ ≠ d.last_ts_ →
      d.last_ts_ - d.last_printed_ts_ ≤ P.MaxPrintDelay) →
    (∀ o ∈ obs, o.val = L) →
    List.Chain (fun a b : Int => a < b) d.last_ts_ (obs.map (fun o => o.ts)) →
    obs.Chain' (fun a b => b.ts - a.ts ≤ P.MaxPrintDelay) →
    (d.last_ts_ ≠ 0 → ∀ o ∈ obs.head?, o.ts - d.last_ts_ ≤ P.MaxPrintDelay) →
    (observe_all P d obs).2.Chain'
        (fun a b => a.ts < b.ts ∧ b.ts - a.ts ≤ P.MaxPrintDelay) ∧
      ∀ l ∈ (observe_all P d obs).2.head?, d.last_printed_ts_ < l.ts ∧
        (d.last_printed_ts_ ≠ 0 → l.ts - d.last_printed_ts_ ≤ P.MaxPrintDelay) := by
  induction obs with
  | nil => intro d _ _ _ _ _ _ _ _; simp [observe_all]
  | cons o rest ih =>
    intro d hL h0 hle hG hsame hinc hgap hfirst
    have hoL : o.val = d.last_val_ := by rw [hL]; exact hsame o (by simp)
    simp only [List.map_cons, List.chain_cons] at hinc
    have hgap_rest : rest.Chain' (fun a b => b.ts - a.ts ≤ P.MaxPrintDelay) := by
      cases rest with
      | nil => exact List.chain'_nil
      | cons _ _ => exact (List.chain'_cons.mp hgap).2
    have hnext : ∀ o2 ∈ rest.head?, o2.ts - o.ts ≤ P.MaxPrintDelay := by
      cases rest with
      | nil => simp
      | cons o2 rest2 =>
        intro x hx
        simp only [List.head?_cons, Option.mem_def, Option.some.injEq] at hx
        subst hx
        exact (List.chain'_cons.mp hgap).1
    have hofirst : d.last_ts_ ≠ 0 → o.ts - d.last_ts_ ≤ P.MaxPrintDelay :=
      fun h => hfirst h o (by simp)
    simp only [observe_all]
    rw [hoL, subframe_update_same]
    by_cases hc : o.ts - d.last_printed_ts_ > P.MaxPrintDelay ∧ d.last_ts_ ≠ 0 ∧
        d.last_printed_ts_ ≠ d.last_ts_
    · rw [if_pos hc]
      obtain ⟨hc1, hc2, hc3⟩ := hc
      have hih := ih { d with last_printed_ts_ := d.last_ts_, last_ts_ := o.ts } hL
        (by simp only; omega) (by simp only; omega)
        (by simp only; intro _ _; exact hofirst hc2)
        (fun x hx => hsame x (by simp [hx])) hinc.2 hgap_rest (fun _ => hnext)
      simp only at hih
      obtain ⟨hch, hhead⟩ := hih
      refine ⟨?_, ?_⟩
      · simp only [List.singleton_append]
        refine List.Chain'.cons' hch ?_
        intro y hy
        exact ⟨(hhead y hy).1, (hhead y hy).2 hc2⟩
      · intro l hl
        simp only [List.singleton_append, List.head?_cons, Option.mem_def,
          Option.some.injEq] at hl
        subst hl
        simp only
        exact ⟨by omega, fun h => hG h hc3⟩
    · rw [if_neg hc]
      have hnew : d.last_printed_ts_ ≠ 0 → d.last_printed_ts_ ≠ o.ts →
          o.ts - d.last_printed_ts_ ≤ P.MaxPrintDelay := by
        intro h1 _
        by_contra hcon
        have hlt0 : d.last_ts_ ≠ 0 := by omega
        have : d.last_printed_ts_ = d.last_ts_ := by
          by_contra hne
          exact hc ⟨by omega, hlt0, hne⟩
        have := hofirst hlt0
        omega
      have hih := ih { d with last_ts_ := o.ts } hL h0 (by simp only; omega) hnew
        (fun x hx => hsame x (by simp [hx])) hinc.2 hgap_rest (fun _ => hnext)
      simpa using hih

/-- Upper count of a run at one level: with `n` lines written and `e` the last
timestamp observed, `MaxPrintDelay * ((n + 1) / 2) ≤ e - last_printed_ts_` and
`MaxPrintDelay * (n / 2) ≤ e - last_ts_`. -/
theorem same_level_run_upper (P : Decls) (L : Int) (obs : List Observation) :
    ∀ d : FileDumper, d.last_val_ = L → d.last_printed_ts_ ≤ d.last_ts_ →
    (∀ o ∈ obs, o.val = L) →
    List.Chain (fun a b : Int => a < b) d.last_ts_ (obs.map (fun o => o.ts)) →
    P.MaxPrintDelay * ((((observe_all P d obs).2.length + 1) / 2 : Nat) : Int) ≤
        (observe_all P d obs).1.last_ts_ - d.last_printed_ts_ ∧
      P.MaxPrintDelay * ((((observe_all P d obs).2.length) / 2 : Nat) : Int) ≤
        (observe_all P d obs).1.last_ts_ - d.last_ts_ := by
  induction obs with
  | nil =>
    intro d _ hle _ _
    simp only [observe_all, List.length_nil]
    norm_num
    linarith
  | cons o rest ih =>
    intro d hL hle hsame hinc
    have hoL : o.val = d.last_val_ := by rw [hL]; exact hsame o (by simp)
    simp only [List.map_cons, List.chain_cons] at hinc
    simp only [observe_all]
    rw [hoL, subframe_update_same]
    by_cases hc : o.ts - d.last_printed_ts_ > P.MaxPrintDelay ∧ d.last_ts_ ≠ 0 ∧
        d.last_printed_ts_ ≠ d.last_ts_
    · rw [if_pos hc]
      have hih := ih { d with last_printed_ts_ := d.last_ts_, last_ts_ := o.ts } hL
        (by simp only; omega) (fun x hx => hsame x (by simp [hx])) hinc.2
      simp only at hih
      obtain ⟨h1, h2⟩ := hih
      simp only [List.singleton_append, List.length_cons]
      generalize (observe_all P { d with last_printed_ts_ := d.last_ts_, last_ts_ := o.ts }
        rest).2.length = n at h1 h2 ⊢
      generalize (observe_all P { d with last_printed_ts_ := d.last_ts_, last_ts_ := o.ts }
        rest).1.last_ts_ = e at h1 h2 ⊢
      have hdiv : (n + 1 + 1) / 2 = n / 2 + 1 := by omega
      rw [hdiv, Nat.cast_add, Nat.cast_one, mul_add, mul_one]
      refine ⟨?_, h1⟩
      have := hc.1
      linarith
    · rw [if_neg hc]
      have hih := ih { d with last_ts_ := o.ts } hL (by simp only; omega)
        (fun x hx => hsame x (by simp [hx])) hinc.2
      simp only at hih
      obtain ⟨h1, h2⟩ := hih
      simp only [List.nil_append]
      exact ⟨h1, by omega⟩

/-- Lower count of a run at one level after a line was written at
`last_printed_ts_`, the pending timestamp being at most `MaxPrintDelay` later:
`e - last_printed_ts_ ≤ (n + 1) * MaxPrintDelay`. -/
theorem same_level_run_lower (P : Decls) (L : Int) (obs : List Observation) :
    ∀ d : FileDumper, d.last_val_ = L → 0 < d.last_ts_ →
    d.last_ts_ - d.last_printed_ts_ ≤ P.MaxPrintDelay →
    (∀ o ∈ obs, o.val = L) →
    List.Chain (fun a b : Int => a < b ∧ b - a ≤ P.MaxPrintDelay) d.last_ts_
      (obs.map (fun o => o.ts)) →
    (observe_all P d obs).1.last_ts_ - d.last_printed_ts_ ≤
      (((observe_all P d obs).2.length : Int) + 1) * P.MaxPrintDelay := by
  induction obs with
  | nil =>
    intro d _ _ hle _ _
    simp only [observe_all, List.length_nil]
    norm_num
    linarith
  | cons o rest ih =>
    intro d hL h0 hle hsame hinc
    have hoL : o.val = d.last_val_ := by rw [hL]; exact hsame o (by simp)
    simp only [List.map_cons, List.chain_cons] at hinc
    obtain ⟨⟨hlt, hgap⟩, hrest⟩ := hinc
    simp only [observe_all]
    rw [hoL, subframe_update_same]
    by_cases hc : o.ts - d.last_printed_ts_ > P.MaxPrintDelay ∧ d.last_ts_ ≠ 0 ∧
        d.last_printed_ts_ ≠ d.last_ts_
    · rw [if_pos hc]
      have hih := ih { d with last_printed_ts_ := d.last_ts_, last_ts_ := o.ts } hL
        (by simp only; omega) (by simp only; omega) (fun x hx => hsame x (by simp [hx])) hrest
      simp only at hih
      simp only [List.singleton_append, List.length_cons]
      generalize (observe_all P { d with last_printed_ts_ := d.last_ts_, last_ts_ := o.ts }
        rest).2.length = n at hih ⊢
      generalize (observe_all P { d with last_printed_ts_ := d.last_ts_, last_ts_ := o.ts }
        rest).1.last_ts_ = e at hih ⊢
      push_cast
      nlinarith
    · rw [if_neg hc]
      have hnew : o.ts - d.last_printed_ts_ ≤ P.MaxPrintDelay := by
        by_contra hcon
        have : d.last_printed_ts_ = d.last_ts_ := by
          by_contra hne
          exact hc ⟨by omega, by omega, hne⟩
        omega
      have hih := ih { d with last_ts_ := o.ts } hL (by simp only; omega) hnew
        (fun x hx => hsame x (by simp [hx])) hrest
      simpa using hih

/-- Lower count of a run at one level before any line was written
(`last_printed_ts_ = 0`), from a timestamp `a > 0` less than `MaxPrintDelay`
before the pending one: `e - a < (n + 1) * MaxPrintDelay`. -/
theorem same_level_run_lower_unprinted (P : Decls) (L a : Int) (obs : List Observation) :
    ∀ d : FileDumper, d.last_val_ = L → d.last_printed_ts_ = 0 → 0 < a → a ≤ d.last_ts_ →
    d.last_ts_ - a < P.MaxPrintDelay →
    (∀ o ∈ obs, o.val = L) →
    List.Chain (fun a b : Int => a < b ∧ b - a ≤ P.MaxPrintDelay) d.last_ts_
      (obs.map (fun o => o.ts)) →
    (observe_all P d obs).1.last_ts_ - a <
      (((observe_all P d obs).2.length : Int) + 1) * P.MaxPrintDelay := by
  induction obs with
  | nil =>
    intro d _ _ _ _ hlt _ _
    simp only [observe_all, List.length_nil]
    norm_num
    linarith
  | cons o rest ih =>
    intro d hL hp0 ha hale hlta hsame hinc
    have hoL : o.val = d.last_val_ := by rw [hL]; exact hsame o (by simp)
    simp only [List.map_cons, List.chain_cons] at hinc
    obtain ⟨⟨hlt, hgap⟩, hrest⟩ := hinc
    simp only [observe_all]
    rw [hoL, subframe_update_same]
    by_cases hc : o.ts - d.last_printed_ts_ > P.MaxPrintDelay ∧ d.last_ts_ ≠ 0 ∧
        d.last_printed_ts_ ≠ d.last_ts_
    · rw [if_pos hc]
      have hlow := same_level_run_lower P L rest
        { d with last_printed_ts_ := d.last_ts_, last_ts_ := o.ts } hL
        (by simp only; omega) (by simp only; omega) (fun x hx => hsame x (by simp [hx])) hrest
      simp only at hlow
      simp only [List.singleton_append, List.length_cons]
      generalize (observe_all P { d with last_printed_ts_ := d.last_ts_, last_ts_ := o.ts }
        rest).2.length = n at hlow ⊢
      generalize (observe_all P { d with last_printed_ts_ := d.last_ts_, last_ts_ := o.ts }
        rest).1.last_ts_ = e at hlow ⊢
      push_cast
      nlinarith
    · rw [if_neg hc]
      have hnew : o.ts - a < P.MaxPrintDelay := by
        by_contra hcon
        exact hc ⟨by omega, by omega, by omega⟩
      have hih := ih { d with last_ts_ := o.ts } hL hp0 ha (by simp only; omega) hnew
        (fun x hx => hsame x (by simp [hx])) hrest
      simpa using hih

/-! ## Frames as runs of observations -/

theorem write_subframe_some (P : Decls) (d : FileDumper) (ts : Int) (buf : List Int)
    (bufsz : Nat) (type : IOType) (r : FileDumper × List Line)
    (h : write_subframe_ P d ts buf bufsz type = some r) :
    ∃ v, r = subframe_update P d ts v type := by
  unfold write_subframe_ at h
  split at h
  · cases h
  · rename_i v _
    exact ⟨v, (Option.some.inj h).symm⟩

theorem write_subframe_config (P : Decls) (d : FileDumper) (ts : Int) (buf : List Int)
    (bufsz : Nat) (type : IOType) (r : FileDumper × List Line)
    (h : write_subframe_ P d ts buf bufsz type = some r) : r.1.config_ = d.config_ := by
  obtain ⟨v, rfl⟩ := write_subframe_some P d ts buf bufsz type r h
  exact (subframe_update_fields P d ts v type).2.2.1

theorem write_loop_observe (P : Decls) (frame : Frame) : ∀ (fuel off : Nat) (d : FileDumper)
    (r : FileDumper × List Line), write_loop P frame fuel off d = some r →
    ∃ obs : List Observation, (∀ o ∈ obs, o.type = frame.io_type) ∧
      r = observe_all P d obs := by
  intro fuel
  induction fuel with
  | zero =>
    intro off d r h
    simp only [write_loop] at h
    split_ifs at h
    exact ⟨[], by simp, by simpa [observe_all] using (Option.some.inj h).symm⟩
  | succ fuel ih =>
    intro off d r h
    simp only [write_loop] at h
    split_ifs at h
    · split at h
      · cases h
      · rename_i d1 out1 hsub
        split at h
        · cases h
        · rename_i d2 out2 hrest
          obtain ⟨v, hv⟩ := write_subframe_some P d _ _ _ _ _ hsub
          obtain ⟨obs, hobs, hr⟩ := ih _ d1 _ hrest
          refine ⟨⟨frame.hw_sample_time off, frame.io_type, v⟩ :: obs, ?_, ?_⟩
          · intro o ho
            rcases List.mem_cons.mp ho with rfl | ho
            · rfl
            · exact hobs o ho
          · simp only [observe_all, ← hv, ← hr]
            exact (Option.some.inj h).symm
    · exact ⟨[], by simp, by simpa [observe_all] using (Option.some.inj h).symm⟩

theorem write_frames_observe (P : Decls) (frames : List Frame) : ∀ (d : FileDumper)
    (r : FileDumper × List Line), write_frames P d frames = some r →
    ∃ obs : List Observation, (∀ o ∈ obs, ∃ f ∈ frames, o.type = f.io_type) ∧
      r = observe_all P d obs := by
  induction frames with
  | nil =>
    intro d r h
    simp only [write_frames] at h
    exact ⟨[], by simp, by simpa [observe_all] using (Option.some.inj h).symm⟩
  | cons frame rest ih =>
    intro d r h
    simp only [write_frames] at h
    split at h
    · cases h
    · rename_i d1 out1 hw
      split at h
      · cases h
      · rename_i d2 out2 hrest
        obtain ⟨obs2, hobs2, hr2⟩ := ih d1 _ hrest
        have h1 : ∃ obs1 : List Observation, (∀ o ∈ obs1, o.type = frame.io_type) ∧
            (d1, out1) = observe_all P d obs1 := by
          unfold write at hw
          split_ifs at hw
          · exact ⟨[], by simp, by simpa [observe_all] using (Option.some.inj hw).symm⟩
          · exact write_loop_observe P frame _ _ d _ hw
        obtain ⟨obs1, hobs1, hr1⟩ := h1
        refine ⟨obs1 ++ obs2, ?_, ?_⟩
        · intro o ho
          rcases List.mem_append.mp ho with ho | ho
          · exact ⟨frame, by simp, hobs1 o ho⟩
          · obtain ⟨f, hf, hfo⟩ := hobs2 o ho
            exact ⟨f, by simp [hf], hfo⟩
        · rw [observe_all_append, ← hr1, ← hr2]
          exact (Option.some.inj h).symm

theorem write_loop_returns (P : Decls) (frame : Frame) : ∀ (fuel off : Nat) (d : FileDumper),
    1 ≤ d.config_.dump_frame → 1 ≤ d.config_.dump_rounding → frame.size ≤ off + fuel →
    ∃ r, write_loop P frame fuel off d = some r ∧ r.1.config_ = d.config_ ∧
      r.1.fp_ = d.fp_ := by
  intro fuel
  induction fuel with
  | zero =>
    intro off d _ _ hfuel
    simp only [write_loop]
    rw [if_neg (by omega)]
    exact ⟨_, rfl, rfl, rfl⟩
  | succ fuel ih =>
    intro off d hf hr hfuel
    simp only [write_loop]
    by_cases hoff : off < frame.size
    · rw [if_pos hoff]
      have hsz1 : 1 ≤ min d.config_.dump_frame (frame.size - off) := by omega
      have hsz2 : min d.config_.dump_frame (frame.size - off) ≤ (frame.data.drop off).length := by
        rw [List.length_drop]; unfold Frame.size; omega
      obtain ⟨m, hm⟩ := find_max_by_abs_returns _ _ hsz1 hsz2
      have hsub : write_subframe_ P d (frame.hw_sample_time off) (frame.data.drop off)
          (min d.config_.dump_frame (frame.size - off)) frame.io_type =
          some (subframe_update P d (frame.hw_sample_time off)
            (subframe_new_val P.sample_bits d.config_.dump_rounding m) frame.io_type) := by
        simp only [write_subframe_, subframe_level, hm]
        rw [if_neg (by omega)]
      obtain ⟨c1, c2⟩ := (subframe_update_fields P d (frame.hw_sample_time off)
        (subframe_new_val P.sample_bits d.config_.dump_rounding m) frame.io_type).2.2
      obtain ⟨r, hr1, hr2, hr3⟩ := ih (off + min d.config_.dump_frame (frame.size - off))
        (subframe_update P d (frame.hw_sample_time off)
          (subframe_new_val P.sample_bits d.config_.dump_rounding m) frame.io_type).1
        (by rw [c1]; exact hf) (by rw [c1]; exact hr) (by omega)
      rw [hsub]
      simp only [hr1]
      exact ⟨_, rfl, by simp only; rw [hr2, c1], by simp only; rw [hr3, c2]⟩
    · rw [if_neg hoff]
      exact ⟨_, rfl, rfl, rfl⟩

theorem write_frames_returns (P : Decls) (frames : List Frame) : ∀ d : FileDumper,
    1 ≤ d.config_.dump_frame → 1 ≤ d.config_.dump_rounding →
    ∃ r, write_frames P d frames = some r := by
  induction frames with
  | nil => intro d _ _; exact ⟨_, rfl⟩
  | cons frame rest ih =>
    intro d hf hr
    have hw : ∃ r, write P d frame = some r ∧ r.1.config_ = d.config_ := by
      unfold write
      split_ifs
      · exact ⟨_, rfl, rfl⟩
      · obtain ⟨r, h1, h2, -⟩ := write_loop_returns P frame frame.size 0 d hf hr (by omega)
        exact ⟨r, h1, h2⟩
    obtain ⟨r1, hr1, hc⟩ := hw
    obtain ⟨r2, hr2⟩ := ih r1.1 (by rw [hc]; exact hf) (by rw [hc]; exact hr)
    simp only [write_frames, hr1, hr2]
    exact ⟨_, rfl⟩

/-! ## The windows of a frame -/

theorem window_offsets_done (n w off : Nat) (hw : 1 ≤ w) (h : n ≤ off) :
    window_offsets n w off = [] := by
  unfold window_offsets
  have h0 : (n - off + w - 1) / w = 0 := by
    apply Nat.div_eq_of_lt
    omega
  rw [h0]
  rfl

theorem window_offsets_step (n w off : Nat) (hw : 1 ≤ w) (h : off < n) :
    window_offsets n w off = off :: window_offsets n w (off + min w (n - off)) := by
  by_cases hfull : w ≤ n - off
  · rw [min_eq_left hfull]
    unfold window_offsets
    have hc : (n - off + w - 1) / w = (n - (off + w) + w - 1) / w + 1 := by
      have : n - off + w - 1 = (n - (off + w) + w - 1) + w := by omega
      rw [this, Nat.add_div_right _ (by omega : 0 < w)]
    rw [hc, List.range_succ_eq_map, List.map_cons, List.map_map]
    simp only [Nat.zero_mul, Nat.add_zero, List.cons.injEq, true_and]
    apply List.map_congr_left
    intro k _
    simp only [Function.comp, Nat.succ_eq_add_one]
    rw [Nat.add_mul, Nat.one_mul]
    omega
  · rw [min_eq_right (by omega)]
    have hend : off + (n - off) = n := by omega
    rw [hend, window_offsets_done n w n hw (le_refl _)]
    unfold window_offsets
    have hc : (n - off + w - 1) / w = 1 := by
      apply Nat.div_eq_of_lt_le <;> omega
    rw [hc, List.range_succ_eq_map]
    simp

theorem write_loop_windows (P : Decls) (frame : Frame) (w : Nat) (hw : 1 ≤ w) :
    ∀ (fuel off : Nat) (d : FileDumper), d.config_.dump_frame = w →
    frame.size ≤ off + fuel →
    write_loop P frame fuel off d =
      process_windows P frame (window_offsets frame.size w off) d := by
  intro fuel
  induction fuel with
  | zero =>
    intro off d _ hfuel
    rw [window_offsets_done frame.size w off hw (by omega)]
    simp only [write_loop, process_windows]
    rw [if_neg (by omega)]
  | succ fuel ih =>
    intro off d hd hfuel
    by_cases hoff : off < frame.size
    · rw [window_offsets_step frame.size w off hw hoff]
      simp only [write_loop, process_windows, if_pos hoff, hd]
      cases hsub : write_subframe_ P d (frame.hw_sample_time off) (frame.data.drop off)
          (min w (frame.size - off)) frame.io_type with
      | none => rfl
      | some r =>
        obtain ⟨d1, out1⟩ := r
        have hc : d1.config_ = d.config_ := write_subframe_config P d _ _ _ _ _ hsub
        simp only
        rw [ih (off + min w (frame.size - off)) d1 (by rw [hc]; exact hd) (by omega)]
    · rw [window_offsets_done frame.size w off hw (by omega)]
      simp only [write_loop, process_windows]
      rw [if_neg hoff]

theorem window_index_lt (n w k : Nat) (hw : 1 ≤ w) : k < (n + w - 1) / w ↔ k * w < n := by
  rw [Nat.lt_iff_add_one_le, Nat.le_div_iff_mul_le (by omega : 0 < w), Nat.add_mul,
    Nat.one_mul]
  omega

/-! ## The characters of a line -/

theorem digitChar_isDigit (n : Nat) (h : n < 10) : (Nat.digitChar n).isDigit = true := by
  interval_cases n <;> decide

theorem toDigitsCore_isDigit (fuel : Nat) : ∀ (n : Nat) (ds : List Char),
    (∀ c ∈ ds, c.isDigit = true) → ∀ c ∈ Nat.toDigitsCore 10 fuel n ds, c.isDigit = true := by
  induction fuel with
  | zero => intro n ds hds; simpa [Nat.toDigitsCore] using hds
  | succ fuel ih =>
    intro n ds hds
    have hcons : ∀ c ∈ Nat.digitChar (n % 10) :: ds, c.isDigit = true := by
      intro c hc
      rcases List.mem_cons.mp hc with rfl | hc
      · exact digitChar_isDigit _ (Nat.mod_lt _ (by decide))
      · exact hds c hc
    simp only [Nat.toDigitsCore]
    split_ifs
    · exact hcons
    · exact ih _ _ hcons

theorem nat_toString_isDigit (n : Nat) : ∀ c ∈ (toString n).data, c.isDigit = true := by
  show ∀ c ∈ (Nat.toDigits 10 n), c.isDigit = true
  exact toDigitsCore_isDigit _ _ _ (by simp)

theorem int_toString_chars (i : Int) :
    ∀ c ∈ (toString i).data, c.isDigit = true ∨ c = Char.ofNat 45 := by
  cases i with
  | ofNat m =>
    intro c hc
    exact Or.inl (nat_toString_isDigit m c hc)
  | negSucc m =>
    intro c hc
    have h : (toString (Int.negSucc m)).data = Char.ofNat 45 :: (toString (m + 1)).data := rfl
    rw [h] at hc
    rcases List.mem_cons.mp hc with rfl | hc
    · exact Or.inr rfl
    · exact Or.inl (nat_toString_isDigit _ c hc)

theorem line_text_eq (long_bits : Nat) (type : IOType) (ts val : Int) :
    Line.text long_bits ⟨type, ts, val⟩ =
      type.label ++ " " ++ toString (to_ulong long_bits ts) ++ " " ++
        toString (to_long long_bits val) ++ "\n" := by
  cases type
  · have h : IOType.label IOType.Input ++ " " = "in " := by decide
    rw [h]
    simp [Line.text]
  · have h : IOType.label IOType.Output ++ " " = "out " := by decide
    rw [h]
    simp [Line.text]

theorem line_text_one_line (long_bits : Nat) (type : IOType) (ts val : Int) :
    ∃ body : List Char,
      (Line.text long_bits ⟨type, ts, val⟩).data = body ++ [Char.ofNat 10] ∧
      Char.ofNat 10 ∉ body ∧ body.count (Char.ofNat 32) = 2 := by
  have hnat := nat_toString_isDigit (to_ulong long_bits ts)
  have hint := int_toString_chars (to_long long_bits val)
  have hnl_nat : Char.ofNat 10 ∉ (toString (to_ulong long_bits ts)).data := by
    intro h; have := hnat _ h; revert this; decide
  have hnl_int : Char.ofNat 10 ∉ (toString (to_long long_bits val)).data := by
    intro h
    rcases hint _ h with h1 | h1
    · revert h1; decide
    · revert h1; decide
  have hsp_nat : (toString (to_ulong long_bits ts)).data.count (Char.ofNat 32) = 0 := by
    rw [List.count_eq_zero]
    intro h; have := hnat _ h; revert this; decide
  have hsp_int : (toString (to_long long_bits val)).data.count (Char.ofNat 32) = 0 := by
    rw [List.count_eq_zero]
    intro h
    rcases hint _ h with h1 | h1
    · revert h1; decide
    · revert h1; decide
  refine ⟨(type.label ++ " ").data ++ (toString (to_ulong long_bits ts)).data ++
    (" " : String).data ++ (toString (to_long long_bits val)).data, ?_, ?_, ?_⟩
  · rw [line_text_eq]
    simp only [String.data_append]
  · simp only [List.mem_append, not_or]
    refine ⟨⟨⟨?_, hnl_nat⟩, by decide⟩, hnl_int⟩
    cases type <;> decide
  · simp only [List.count_append, hsp_nat, hsp_int]
    cases type <;> decide

/-! ## C1: the decision procedure -/

/-- C1, as stated, fails: with `MaxPrintDelay = 10`, last line printed at 1,
pending observation `(8, 20)`, the window `[20]` stamped 15 makes
`write_subframe_` write the pending line `8 20` (15 - 1 > 10), while the
procedure that measures `timestamp - lastObservedTimestamp` (15 - 8) writes
nothing and keeps `lastEmittedTimestamp = 1`. -/
theorem C1_counterexample :
    write_subframe_ ⟨16, 10⟩ ⟨⟨1, 1⟩, some Stream.stdout, 1, 8, 20⟩ 15 [20] 1 IOType.Input
      = some (⟨⟨1, 1⟩, some Stream.stdout, 8, 15, 20⟩, [⟨IOType.Input, 8, 20⟩]) ∧
    spec_decision_procedure (fun s => s.lastObservedTimestamp) 10
        (FileDumper.state ⟨⟨1, 1⟩, some Stream.stdout, 1, 8, 20⟩) ⟨15, IOType.Input, 20⟩
      = (⟨20, 15, 1⟩, []) ∧
    spec_decision_procedure (fun s => s.lastObservedTimestamp) 10
        (FileDumper.state ⟨⟨1, 1⟩, some Stream.stdout, 1, 8, 20⟩) ⟨15, IOType.Input, 20⟩
      ≠ (FileDumper.state ⟨⟨1, 1⟩, some Stream.stdout, 8, 15, 20⟩,
          [Line.event ⟨IOType.Input, 8, 20⟩]) := by
  decide

/-- C1, amended: for every dumper state and every observation
`(ts, type, new_val)`, lines 92-103 of `write_subframe_` write the same lines
and end in the same state as the four-step decision procedure in which the
heartbeat delay is measured from the last emission
(`timestamp - lastEmittedTimestamp > MaxPrintDelay`); the configuration and the
destination are untouched; and `write_subframe_` returns exactly that result on
every window whose level is `new_val`. -/
theorem C1_write_subframe_refines_procedure (P : Decls) (d : FileDumper) (ts : Int)
    (type : IOType) (new_val : Int) :
    spec_decision_procedure (fun s => s.lastEmittedTimestamp) P.MaxPrintDelay
        d.state ⟨ts, type, new_val⟩ =
      ((subframe_update P d ts new_val type).1.state,
        (subframe_update P d ts new_val type).2.map Line.event) ∧
    (subframe_update P d ts new_val type).1.config_ = d.config_ ∧
    (subframe_update P d ts new_val type).1.fp_ = d.fp_ ∧
    ∀ (buf : List Int) (bufsz : Nat), subframe_level P d.config_ buf bufsz = some new_val →
      write_subframe_ P d ts buf bufsz type = some (subframe_update P d ts new_val type) := by
  refine ⟨subframe_update_refines P d ts type new_val,
    (subframe_update_fields P d ts new_val type).2.2.1,
    (subframe_update_fields P d ts new_val type).2.2.2, ?_⟩
  intro buf bufsz hlevel
  simp only [write_subframe_, hlevel]

/-- C1 (amended) at the window `[20]` stamped 15 after `(8, 20)`, last line
printed at 1: both write `8 20` and end with last line at 8, pending
`(15, 20)`. -/
theorem C1_write_subframe_refines_procedure_witness :
    write_subframe_ ⟨16, 10⟩ ⟨⟨1, 1⟩, some Stream.stdout, 1, 8, 20⟩ 15 [20] 1 IOType.Input
      = some (⟨⟨1, 1⟩, some Stream.stdout, 8, 15, 20⟩, [⟨IOType.Input, 8, 20⟩]) ∧
    spec_decision_procedure (fun s => s.lastEmittedTimestamp) 10
        (FileDumper.state ⟨⟨1, 1⟩, some Stream.stdout, 1, 8, 20⟩) ⟨15, IOType.Input, 20⟩
      = (⟨20, 15, 8⟩, [⟨8, IOType.Input, 20⟩]) :=
  ⟨by decide,
    ((C1_write_subframe_refines_procedure ⟨16, 10⟩ ⟨⟨1, 1⟩, some Stream.stdout, 1, 8, 20⟩ 15
      IOType.Input 20).1).trans (by decide)⟩

/-! ## C2: the level of a window -/

/-- C2: for a window of `bufsz ≥ 1` samples of `sample_t` inside the buffer and a
rounding step `dump_rounding ≥ 1`, `write_subframe_` returns, and the level it
computes and stores in `last_val_` is the max-abs sample `m` of the window
truncated toward zero to a multiple of the step: its magnitude is
`|m| / dump_rounding * dump_rounding` (floor division), it is that magnitude
with the sign of `m` applied, and when it is not zero its sign is the sign of
`m`. -/
theorem C2_level_truncates_toward_zero (P : Decls) (d : FileDumper) (ts : Int)
    (buf : List Int) (bufsz : Nat) (type : IOType)
    (hbits : 1 ≤ P.sample_bits) (h1 : 1 ≤ bufsz) (h2 : bufsz ≤ buf.length)
    (hr : 1 ≤ d.config_.dump_rounding)
    (hrange : ∀ x ∈ buf.take bufsz, in_sample_range P.sample_bits x) :
    ∃ m r, find_max_by_abs buf bufsz = some m ∧
      write_subframe_ P d ts buf bufsz type = some r ∧
      subframe_level P d.config_ buf bufsz = some r.1.last_val_ ∧
      r.1.last_val_.natAbs = m.natAbs / d.config_.dump_rounding * d.config_.dump_rounding ∧
      r.1.last_val_ =
        m.sign * ((m.natAbs / d.config_.dump_rounding * d.config_.dump_rounding : Nat) : Int) ∧
      (r.1.last_val_ ≠ 0 → r.1.last_val_.sign = m.sign) := by
  obtain ⟨m, hfind⟩ := find_max_by_abs_returns buf bufsz h1 h2
  have hm := hrange m (find_max_by_abs_mem buf bufsz m h1 hfind)
  have hlevel : subframe_level P d.config_ buf bufsz
      = some (subframe_new_val P.sample_bits d.config_.dump_rounding m) := by
    simp only [subframe_level, hfind]
    rw [if_neg (by omega)]
  have hval := subframe_new_val_eq P.sample_bits d.config_.dump_rounding m hbits hm
  refine ⟨m, subframe_update P d ts (subframe_new_val P.sample_bits d.config_.dump_rounding m)
    type, hfind, by simp [write_subframe_, hlevel], ?_, ?_, ?_, ?_⟩
  · rw [(subframe_update_fields P d ts _ type).2.1]; exact hlevel
  · rw [(subframe_update_fields P d ts _ type).2.1, hval, Int.natAbs_mul, Int.natAbs_ofNat]
    rcases lt_trichotomy m 0 with hneg | hzero | hpos
    · rw [Int.sign_eq_neg_one_of_neg hneg]; simp
    · subst hzero; simp
    · rw [Int.sign_eq_one_of_pos hpos]; simp
  · rw [(subframe_update_fields P d ts _ type).2.1]; exact hval
  · rw [(subframe_update_fields P d ts _ type).2.1, hval]
    intro hne
    rcases lt_trichotomy m 0 with hneg | hzero | hpos
    · rw [Int.sign_eq_neg_one_of_neg hneg] at hne ⊢
      apply Int.sign_eq_neg_one_of_neg
      have : (0 : Int) ≤ ((m.natAbs / d.config_.dump_rounding * d.config_.dump_rounding : Nat) : Int) :=
        Int.ofNat_nonneg _
      omega
    · subst hzero; simp at hne
    · rw [Int.sign_eq_one_of_pos hpos] at hne ⊢
      apply Int.sign_eq_one_of_pos
      have : (0 : Int) ≤ ((m.natAbs / d.config_.dump_rounding * d.config_.dump_rounding : Nat) : Int) :=
        Int.ofNat_nonneg _
      omega

/-- C2 at the window `[12, -57, 3, 41]` with rounding step 10 and 16-bit
samples: the max-abs sample is -57 and the level is -50. -/
theorem C2_level_truncates_toward_zero_witness :
    (∃ m r, find_max_by_abs [12, -57, 3, 41] 4 = some m ∧
      write_subframe_ ⟨16, 10⟩ (FileDumper.init ⟨4, 10⟩) 1000 [12, -57, 3, 41] 4
        IOType.Output = some r ∧
      subframe_level ⟨16, 10⟩ ⟨4, 10⟩ [12, -57, 3, 41] 4 = some r.1.last_val_ ∧
      r.1.last_val_.natAbs = m.natAbs / 10 * 10 ∧
      r.1.last_val_ = m.sign * ((m.natAbs / 10 * 10 : Nat) : Int) ∧
      (r.1.last_val_ ≠ 0 → r.1.last_val_.sign = m.sign)) ∧
    find_max_by_abs [12, -57, 3, 41] 4 = some (-57) ∧
    subframe_level ⟨16, 10⟩ ⟨4, 10⟩ [12, -57, 3, 41] 4 = some (-50) :=
  ⟨C2_level_truncates_toward_zero ⟨16, 10⟩ (FileDumper.init ⟨4, 10⟩) 1000 [12, -57, 3, 41] 4
    IOType.Output (by decide) (by decide) (by decide) (by decide) (by decide),
    by decide, by decide⟩

/-! ## C3: the max-abs sample -/

/-- C3: on a window of `bufsz ≥ 1` samples inside the buffer, `find_max_by_abs`
returns the sample `m` at an index `i` of the window such that every sample of
the window has absolute value at most that of `m`, and `i` is the smallest index
with that property (every index of the window with it is at least `i`; the
samples before `i` are strictly smaller in absolute value). -/
theorem C3_find_max_by_abs_first_greatest (buf : List Int) (bufsz : Nat)
    (h1 : 1 ≤ bufsz) (h2 : bufsz ≤ buf.length) :
    ∃ (i : Nat) (m : Int), i < bufsz ∧ buf[i]? = some m ∧ find_max_by_abs buf bufsz = some m ∧
      (∀ (j : Nat) (x : Int), j < bufsz → buf[j]? = some x → x.natAbs ≤ m.natAbs) ∧
      (∀ (j : Nat) (x : Int), j < i → buf[j]? = some x → x.natAbs < m.natAbs) ∧
      (∀ (k : Nat) (y : Int), k < bufsz → buf[k]? = some y →
        (∀ (j : Nat) (x : Int), j < bufsz → buf[j]? = some x → x.natAbs ≤ y.natAbs) → i ≤ k) := by
  cases buf with
  | nil => simp at h2; omega
  | cons b0 rest =>
    simp only [List.length_cons] at h2
    obtain ⟨hall, hge, hpos⟩ := find_max_by_abs_loop_spec (rest.take (bufsz - 1)) b0
    have hval : find_max_by_abs (b0 :: rest) bufsz
        = some (find_max_by_abs_loop b0 (rest.take (bufsz - 1))) := by
      simp [find_max_by_abs, h2]
    have hmax : ∀ (j : Nat) (x : Int), j < bufsz → (b0 :: rest)[j]? = some x →
        x.natAbs ≤ (find_max_by_abs_loop b0 (rest.take (bufsz - 1))).natAbs := by
      intro j x hj hx
      cases j with
      | zero =>
        rw [List.getElem?_cons_zero] at hx
        cases hx
        exact hge
      | succ j =>
        rw [List.getElem?_cons_succ] at hx
        apply hall
        apply List.getElem?_mem (n := j)
        rw [List.getElem?_take_of_lt (by omega)]
        exact hx
    have hfirst : ∃ i : Nat, i < bufsz ∧
        (b0 :: rest)[i]? = some (find_max_by_abs_loop b0 (rest.take (bufsz - 1))) ∧
        ∀ (j : Nat) (x : Int), j < i → (b0 :: rest)[j]? = some x →
          x.natAbs < (find_max_by_abs_loop b0 (rest.take (bufsz - 1))).natAbs := by
      rcases hpos with heq | ⟨k, hk, hlt, hbefore⟩
      · exact ⟨0, by omega, by rw [heq]; exact List.getElem?_cons_zero, by intro j x hj; omega⟩
      · have hklt : k < bufsz - 1 := by
          by_contra hcon
          rw [List.getElem?_take_eq_none (by omega)] at hk
          cases hk
        refine ⟨k + 1, by omega, ?_, ?_⟩
        · rw [List.getElem?_cons_succ, ← List.getElem?_take_of_lt hklt]; exact hk
        · intro j x hj hx
          cases j with
          | zero =>
            rw [List.getElem?_cons_zero] at hx
            cases hx
            exact hlt
          | succ j =>
            rw [List.getElem?_cons_succ] at hx
            apply hbefore j x (by omega)
            rw [List.getElem?_take_of_lt (by omega)]
            exact hx
    obtain ⟨i, hi, hget, hbefore⟩ := hfirst
    refine ⟨i, _, hi, hget, hval, hmax, hbefore, ?_⟩
    intro k y hk hy hymax
    by_contra hcon
    have h3 := hbefore k y (by omega) hy
    have h4 := hymax i _ hi hget
    omega

/-- C3 at the window `[12, -57, 3, 41]`. -/
theorem C3_find_max_by_abs_first_greatest_witness :
    ∃ (i : Nat) (m : Int), i < 4 ∧ [12, -57, 3, 41][i]? = some m ∧
      find_max_by_abs [12, -57, 3, 41] 4 = some m ∧
      (∀ (j : Nat) (x : Int), j < 4 → [12, -57, 3, 41][j]? = some x → x.natAbs ≤ m.natAbs) ∧
      (∀ (j : Nat) (x : Int), j < i → [12, -57, 3, 41][j]? = some x → x.natAbs < m.natAbs) ∧
      (∀ (k : Nat) (y : Int), k < 4 → [12, -57, 3, 41][k]? = some y →
        (∀ (j : Nat) (x : Int), j < 4 → [12, -57, 3, 41][j]? = some x → x.natAbs ≤ y.natAbs) → i ≤ k) :=
  C3_find_max_by_abs_first_greatest [12, -57, 3, 41] 4 (by decide) (by decide)

/-! ## C4: every transition is captured -/

/-- C4: on an open dumper fed a stream of observations with positive, strictly
increasing timestamps, an observation `o` whose level differs from `last_val_`
when it is processed is written during its own step, as the last line of that
step, with its own label, timestamp and level; and the lines of that step are
part of the output of the whole run, after the lines of the earlier
observations and before those of the later ones. -/
theorem C4_transition_emitted_in_its_step (P : Decls) (config : Config) (fp : Stream)
    (obs pre post : List Observation) (o : Observation)
    (hpos : ∀ o ∈ obs, 0 < o.ts) (hinc : obs.Pairwise (fun a b => a.ts < b.ts))
    (hsplit : obs = pre ++ o :: post)
    (hchg : o.val ≠ (observe_all P (FileDumper.opened config fp) pre).1.last_val_) :
    (∃ before,
      (subframe_update P (observe_all P (FileDumper.opened config fp) pre).1
          o.ts o.val o.type).2 = before ++ [⟨o.type, o.ts, o.val⟩]) ∧
    (observe_all P (FileDumper.opened config fp) obs).2 =
      (observe_all P (FileDumper.opened config fp) pre).2 ++
        ((subframe_update P (observe_all P (FileDumper.opened config fp) pre).1
            o.ts o.val o.type).2 ++
          (observe_all P
            (subframe_update P (observe_all P (FileDumper.opened config fp) pre).1
              o.ts o.val o.type).1 post).2) := by
  obtain ⟨h1, h2, h3⟩ := state_before_observation P config fp obs pre post o hpos hinc hsplit
  constructor
  · rw [subframe_update_eq]
    have hop : opens P (observe_all P (FileDumper.opened config fp) pre).1 o.ts o.val := by
      unfold opens
      refine ⟨hchg, by omega, ?_⟩
      split_ifs <;> omega
    simp only [if_pos hop]
    exact ⟨_, rfl⟩
  · subst hsplit
    rw [observe_all_append]
    simp only [observe_all]

/-- C4 on the stream `(1, 20), (2, 30)` of an input frame: the second observation
changes the level and is written in its step. -/
theorem C4_transition_emitted_in_its_step_witness :
    (∃ before,
      (subframe_update ⟨16, 10⟩
          (observe_all ⟨16, 10⟩ (FileDumper.opened ⟨1, 1⟩ Stream.stdout)
            [⟨1, IOType.Input, 20⟩]).1 2 30 IOType.Input).2
        = before ++ [⟨IOType.Input, 2, 30⟩]) ∧
    (observe_all ⟨16, 10⟩ (FileDumper.opened ⟨1, 1⟩ Stream.stdout)
        [⟨1, IOType.Input, 20⟩, ⟨2, IOType.Input, 30⟩]).2 =
      (observe_all ⟨16, 10⟩ (FileDumper.opened ⟨1, 1⟩ Stream.stdout)
          [⟨1, IOType.Input, 20⟩]).2 ++
        ((subframe_update ⟨16, 10⟩
            (observe_all ⟨16, 10⟩ (FileDumper.opened ⟨1, 1⟩ Stream.stdout)
              [⟨1, IOType.Input, 20⟩]).1 2 30 IOType.Input).2 ++
          (observe_all ⟨16, 10⟩
            (subframe_update ⟨16, 10⟩
              (observe_all ⟨16, 10⟩ (FileDumper.opened ⟨1, 1⟩ Stream.stdout)
                [⟨1, IOType.Input, 20⟩]).1 2 30 IOType.Input).1 []).2) :=
  C4_transition_emitted_in_its_step ⟨16, 10⟩ ⟨1, 1⟩ Stream.stdout
    [⟨1, IOType.Input, 20⟩, ⟨2, IOType.Input, 30⟩] [⟨1, IOType.Input, 20⟩] []
    ⟨2, IOType.Input, 30⟩ (by decide) (by decide) (by decide) (by decide)

/-! ## C5: heartbeats of a constant level -/

/-- C5: on an open dumper fed a stream of observations of one level `L`, with
positive, strictly increasing timestamps and consecutive observations at most
`MaxPrintDelay` apart, any two consecutive lines written have increasing
timestamps that differ by at most `MaxPrintDelay`. -/
theorem C5_heartbeat_lines_within_delay (P : Decls) (config : Config) (fp : Stream)
    (obs : List Observation) (L : Int)
    (hsame : ∀ o ∈ obs, o.val = L)
    (hpos : ∀ o ∈ obs, 0 < o.ts) (hinc : obs.Pairwise (fun a b => a.ts < b.ts))
    (hgap : obs.Chain' (fun a b => b.ts - a.ts ≤ P.MaxPrintDelay)) :
    (observe_all P (FileDumper.opened config fp) obs).2.Chain'
      (fun a b => a.ts < b.ts ∧ b.ts - a.ts ≤ P.MaxPrintDelay) := by
  have hch := chain_of_increasing obs hpos hinc
  by_cases hL : L = 0
  · exact (same_level_run_chain P L obs (FileDumper.opened config fp) hL.symm (le_refl _)
      (le_refl _) (fun h => absurd rfl h) hsame hch hgap (fun h => absurd rfl h)).1
  · cases obs with
    | nil => simp [observe_all]
    | cons o rest =>
      simp only [List.map_cons, List.chain_cons] at hch
      have hoL : o.val = L := hsame o (by simp)
      have hstep : subframe_update P (FileDumper.opened config fp) o.ts o.val o.type =
          (⟨config, some fp, o.ts, o.ts, o.val⟩, [⟨o.type, o.ts, o.val⟩]) := by
        have hcl : ¬ closes P (FileDumper.opened config fp) o.ts o.val := by
          simp [closes, FileDumper.opened, FileDumper.init]
        have hop : opens P (FileDumper.opened config fp) o.ts o.val := by
          simp only [opens, if_neg hcl]
          simp only [FileDumper.opened, FileDumper.init]
          exact ⟨by rw [hoL]; exact hL, by omega, by omega⟩
        rw [subframe_update_eq]
        simp only [if_neg hcl, if_pos hop, List.nil_append]
        rfl
      simp only [observe_all, hstep]
      have hgap_rest : rest.Chain' (fun a b => b.ts - a.ts ≤ P.MaxPrintDelay) := by
        cases rest with
        | nil => exact List.chain'_nil
        | cons _ _ => exact (List.chain'_cons.mp hgap).2
      have hnext : ∀ o2 ∈ rest.head?, o2.ts - o.ts ≤ P.MaxPrintDelay := by
        cases rest with
        | nil => simp
        | cons o2 rest2 =>
          intro x hx
          simp only [List.head?_cons, Option.mem_def, Option.some.injEq] at hx
          subst hx
          exact (List.chain'_cons.mp hgap).1
      obtain ⟨h1, h2⟩ := same_level_run_chain P L rest ⟨config, some fp, o.ts, o.ts, o.val⟩ hoL
        (by simp only; omega) (le_refl _) (fun _ h => absurd rfl h)
        (fun x hx => hsame x (by simp [hx])) hch.2 hgap_rest (fun _ => hnext)
      simp only [List.singleton_append]
      refine List.Chain'.cons' h1 ?_
      intro y hy
      exact ⟨(h2 y hy).1, (h2 y hy).2 (by simp only; omega)⟩

/-- C5 on the stream of level 20 stamped 1, 8, 15, 22, 29 with
`MaxPrintDelay = 10`: the lines written are stamped 1, 8, 15, 22. -/
theorem C5_heartbeat_lines_within_delay_witness :
    (observe_all ⟨16, 10⟩ (FileDumper.opened ⟨1, 1⟩ Stream.stdout)
        [⟨1, IOType.Input, 20⟩, ⟨8, IOType.Input, 20⟩, ⟨15, IOType.Input, 20⟩,
          ⟨22, IOType.Input, 20⟩, ⟨29, IOType.Input, 20⟩]).2.Chain'
      (fun a b => a.ts < b.ts ∧ b.ts - a.ts ≤ 10) ∧
    (observe_all ⟨16, 10⟩ (FileDumper.opened ⟨1, 1⟩ Stream.stdout)
        [⟨1, IOType.Input, 20⟩, ⟨8, IOType.Input, 20⟩, ⟨15, IOType.Input, 20⟩,
          ⟨22, IOType.Input, 20⟩, ⟨29, IOType.Input, 20⟩]).2.map (fun l => l.ts)
      = [1, 8, 15, 22] :=
  ⟨C5_heartbeat_lines_within_delay ⟨16, 10⟩ ⟨1, 1⟩ Stream.stdout
    [⟨1, IOType.Input, 20⟩, ⟨8, IOType.Input, 20⟩, ⟨15, IOType.Input, 20⟩,
      ⟨22, IOType.Input, 20⟩, ⟨29, IOType.Input, 20⟩] 20
    (by decide) (by decide) (by decide) (by simp), by decide⟩

/-! ## C6: repeated timestamps -/

/-- C6, as stated, fails: five one-sample frames, output frames stamped 5, 7, 10
and input frames stamped 10, 20 (each direction strictly increasing), window 1,
rounding 1, `MaxPrintDelay = 100`. The lines written are `out 5 1`, `in 10 2`,
`out 7 3`, `in 10 3`, `in 20 4`: the two consecutive lines labelled `in`,
`in 10 2` and `in 10 3`, carry the same timestamp 10 (the second is the pending
output observation `(10, 3)`, closed while an input frame is processed). -/
theorem C6_counterexample :
    (write_frames ⟨16, 100⟩ (FileDumper.opened ⟨1, 1⟩ Stream.stdout)
        [⟨IOType.Output, [1], fun k => 5 + k⟩, ⟨IOType.Input, [2], fun k => 10 + k⟩,
          ⟨IOType.Output, [3], fun k => 7 + k⟩, ⟨IOType.Output, [3], fun k => 10 + k⟩,
          ⟨IOType.Input, [4], fun k => 20 + k⟩]).map (fun r => r.2)
      = some [⟨IOType.Output, 5, 1⟩, ⟨IOType.Input, 10, 2⟩, ⟨IOType.Output, 7, 3⟩,
          ⟨IOType.Input, 10, 3⟩, ⟨IOType.Input, 20, 4⟩] ∧
    ([⟨IOType.Output, 5, 1⟩, ⟨IOType.Input, 10, 2⟩, ⟨IOType.Output, 7, 3⟩,
        ⟨IOType.Input, 10, 3⟩, ⟨IOType.Input, 20, 4⟩] : List Line).filter
        (fun l => decide (l.type = IOType.Input))
      = [⟨IOType.Input, 10, 2⟩, ⟨IOType.Input, 10, 3⟩, ⟨IOType.Input, 20, 4⟩] ∧
    ¬ ([⟨IOType.Input, 10, 2⟩, ⟨IOType.Input, 10, 3⟩, ⟨IOType.Input, 20, 4⟩] : List Line).Chain'
        (fun a b => a.ts ≠ b.ts) := by
  refine ⟨by decide, by decide, ?_⟩
  simp

/-- C6, amended: for every sequence of frames written to a freshly opened dumper
(window size and rounding step at least 1), all the writes return, and no two
lines written one right after the other carry the same timestamp, whatever
their labels; in particular, when all the frames have one direction, no two
consecutive lines of that direction carry the same timestamp. -/
theorem C6_adjacent_lines_differ (P : Decls) (config : Config) (fp : Stream)
    (frames : List Frame) (hf : 1 ≤ config.dump_frame) (hr : 1 ≤ config.dump_rounding) :
    ∃ r, write_frames P (FileDumper.opened config fp) frames = some r ∧
      r.2.Chain' (fun a b => a.ts ≠ b.ts) ∧
      ∀ dir : IOType, (∀ f ∈ frames, f.io_type = dir) →
        (r.2.filter (fun l => decide (l.type = dir))).Chain' (fun a b => a.ts ≠ b.ts) := by
  obtain ⟨r, hret⟩ := write_frames_returns P frames (FileDumper.opened config fp) hf hr
  obtain ⟨obs, hobs, hrun⟩ := write_frames_observe P frames _ r hret
  have hadj : r.2.Chain' (fun a b => a.ts ≠ b.ts) := by
    rw [hrun]; exact (observe_all_adjacent P obs _).1
  refine ⟨r, hret, hadj, ?_⟩
  intro dir hdir
  have hall : r.2.filter (fun l => decide (l.type = dir)) = r.2 := by
    rw [List.filter_eq_self]
    intro l hl
    rw [hrun] at hl
    obtain ⟨o, ho, hlo⟩ := observe_all_line_type P obs _ l hl
    obtain ⟨f, hfm, hof⟩ := hobs o ho
    simp only [decide_eq_true_eq]
    rw [hlo, hof]
    exact hdir f hfm
  rw [hall]
  exact hadj

/-- C6 (amended) on the five frames of the counterexample: the timestamps of
the lines written, in order, are 5, 10, 7, 10, 20. -/
theorem C6_adjacent_lines_differ_witness :
    (∃ r, write_frames ⟨16, 100⟩ (FileDumper.opened ⟨1, 1⟩ Stream.stdout)
        [⟨IOType.Output, [1], fun k => 5 + k⟩, ⟨IOType.Input, [2], fun k => 10 + k⟩,
          ⟨IOType.Output, [3], fun k => 7 + k⟩, ⟨IOType.Output, [3], fun k => 10 + k⟩,
          ⟨IOType.Input, [4], fun k => 20 + k⟩] = some r ∧
      r.2.Chain' (fun a b => a.ts ≠ b.ts) ∧
      ∀ dir : IOType,
        (∀ f ∈ ([⟨IOType.Output, [1], fun k => 5 + k⟩, ⟨IOType.Input, [2], fun k => 10 + k⟩,
          ⟨IOType.Output, [3], fun k => 7 + k⟩, ⟨IOType.Output, [3], fun k => 10 + k⟩,
          ⟨IOType.Input, [4], fun k => 20 + k⟩] : List Frame), f.io_type = dir) →
        (r.2.filter (fun l => decide (l.type = dir))).Chain' (fun a b => a.ts ≠ b.ts)) ∧
    (write_frames ⟨16, 100⟩ (FileDumper.opened ⟨1, 1⟩ Stream.stdout)
        [⟨IOType.Output, [1], fun k => 5 + k⟩, ⟨IOType.Input, [2], fun k => 10 + k⟩,
          ⟨IOType.Output, [3], fun k => 7 + k⟩, ⟨IOType.Output, [3], fun k => 10 + k⟩,
          ⟨IOType.Input, [4], fun k => 20 + k⟩]).map (fun r => r.2.map (fun l => l.ts))
      = some [5, 10, 7, 10, 20] :=
  ⟨C6_adjacent_lines_differ ⟨16, 100⟩ ⟨1, 1⟩ Stream.stdout _ (by decide) (by decide),
    by decide⟩

/-! ## C7: the very first observation -/

/-- C7, as stated, fails: on a freshly opened dumper the first window, stamped
1000 with level -50 in an output frame, is written at once as `out 1000 -50`
(the level differs from the initial `last_val_ = 0`, so the second
`print_last_maybe_` call prints it). -/
theorem C7_counterexample :
    (subframe_update ⟨16, 10⟩ (FileDumper.opened ⟨1, 1⟩ Stream.stdout) 1000 (-50)
        IOType.Output).2 = [⟨IOType.Output, 1000, -50⟩] ∧
    write ⟨16, 10⟩ (FileDumper.opened ⟨1, 1⟩ Stream.stdout)
        ⟨IOType.Output, [-50], fun _ => 1000⟩
      = some (⟨⟨1, 1⟩, some Stream.stdout, 1000, 1000, -50⟩, [⟨IOType.Output, 1000, -50⟩]) := by
  decide

/-- C7, amended: from the initial state, the very first observation writes no
line exactly when its level is 0 (the initial `last_val_`) or its timestamp is
0; otherwise it writes exactly one line, its own. -/
theorem C7_first_observation_lines (P : Decls) (config : Config) (fp : Stream)
    (ts new_val : Int) (type : IOType) :
    (subframe_update P (FileDumper.opened config fp) ts new_val type).2 =
      if new_val = 0 ∨ ts = 0 then [] else [⟨type, ts, new_val⟩] := by
  rw [subframe_update_eq]
  have hcl : ¬ closes P (FileDumper.opened config fp) ts new_val := by
    simp [closes, FileDumper.opened, FileDumper.init]
  have hop : opens P (FileDumper.opened config fp) ts new_val ↔ ¬ (new_val = 0 ∨ ts = 0) := by
    simp only [opens, if_neg hcl]
    simp only [FileDumper.opened, FileDumper.init]
    constructor
    · rintro ⟨h1, h2, -⟩ h
      rcases h with h | h
      · exact h1 h
      · exact h2 h
    · intro h
      push_neg at h
      exact ⟨h.1, h.2, fun h3 => h.2 h3.symm⟩
  simp only [if_neg hcl, List.nil_append]
  by_cases h : new_val = 0 ∨ ts = 0
  · rw [if_pos h, if_neg (fun h2 => (hop.mp h2) h)]
  · rw [if_neg h, if_pos (hop.mpr h)]

/-! ## C8: an unchanged level inside the heartbeat delay -/

/-- C8, as stated, fails: with `MaxPrintDelay = 10`, after the observations
`(1, 20)` and `(8, 20)` the last observation has level 20 at timestamp 8, and
the next observation `(15, 20)` has the same level and 0 ≤ 15 - 8 < 10, yet it
writes the line `8 20`: the delay is measured from the last line written (at
1), and 15 - 1 > 10. -/
theorem C8_counterexample :
    (observe_all ⟨16, 10⟩ (FileDumper.opened ⟨1, 1⟩ Stream.stdout)
        [⟨1, IOType.Input, 20⟩, ⟨8, IOType.Input, 20⟩]).1
      = ⟨⟨1, 1⟩, some Stream.stdout, 1, 8, 20⟩ ∧
    (0 : Int) ≤ 15 - 8 ∧ (15 : Int) - 8 < 10 ∧
    (subframe_update ⟨16, 10⟩ ⟨⟨1, 1⟩, some Stream.stdout, 1, 8, 20⟩ 15 20 IOType.Input).2
      = [⟨IOType.Input, 8, 20⟩] := by
  decide

/-- C8, amended: in every dumper state, a next observation with the same level
as the last one and a timestamp at most `MaxPrintDelay` after the last line
written (`ts - last_printed_ts_ ≤ MaxPrintDelay`) writes no line and only moves
`last_ts_` to the new timestamp. -/
theorem C8_same_level_within_delay_emits_nothing (P : Decls) (d : FileDumper) (ts : Int)
    (type : IOType) (hgap : ts - d.last_printed_ts_ ≤ P.MaxPrintDelay) :
    subframe_update P d ts d.last_val_ type = ({ d with last_ts_ := ts }, []) := by
  rw [subframe_update_eq]
  have hcl : ¬ closes P d ts d.last_val_ := by
    unfold closes
    rintro ⟨h | h, -, -⟩
    · exact h rfl
    · omega
  have hop : ¬ opens P d ts d.last_val_ := by
    unfold opens
    rintro ⟨h, -, -⟩
    exact h rfl
  simp only [if_neg hcl, if_neg hop, List.append_nil]

/-- C8 (amended) on levels 20 then 20: after the first observation `(1, 20)`,
written at 1, the observation `(8, 20)` writes nothing. -/
theorem C8_same_level_within_delay_emits_nothing_witness :
    (observe_all ⟨16, 10⟩ (FileDumper.opened ⟨1, 1⟩ Stream.stdout) [⟨1, IOType.Input, 20⟩]).1
      = ⟨⟨1, 1⟩, some Stream.stdout, 1, 1, 20⟩ ∧
    subframe_update ⟨16, 10⟩ ⟨⟨1, 1⟩, some Stream.stdout, 1, 1, 20⟩ 8 20 IOType.Input
      = (⟨⟨1, 1⟩, some Stream.stdout, 1, 8, 20⟩, []) :=
  ⟨by decide,
    C8_same_level_within_delay_emits_nothing ⟨16, 10⟩ ⟨⟨1, 1⟩, some Stream.stdout, 1, 1, 20⟩ 8
      IOType.Input (by decide)⟩

/-! ## C9: the number of heartbeat lines -/

/-- C9, as stated, fails, in both directions, with `MaxPrintDelay = 10` and the
level 20 throughout. Observations stamped 1, 8, 15, 22, 29 (T = 28, floor(T / H)
= 2) write four lines, more than 2 + 1. Observations stamped 1 and 101 (T =
100, floor(T / H) = 10) write one line, fewer than 10 - 1. -/
theorem C9_counterexample :
    (observe_all ⟨16, 10⟩ (FileDumper.opened ⟨1, 1⟩ Stream.stdout)
        [⟨1, IOType.Input, 20⟩, ⟨8, IOType.Input, 20⟩, ⟨15, IOType.Input, 20⟩,
          ⟨22, IOType.Input, 20⟩, ⟨29, IOType.Input, 20⟩]).2
      = [⟨IOType.Input, 1, 20⟩, ⟨IOType.Input, 8, 20⟩, ⟨IOType.Input, 15, 20⟩,
          ⟨IOType.Input, 22, 20⟩] ∧
    ((29 : Int) - 1) / 10 = 2 ∧ ¬ ((4 : Int) ≤ 2 + 1) ∧
    (observe_all ⟨16, 10⟩ (FileDumper.opened ⟨1, 1⟩ Stream.stdout)
        [⟨1, IOType.Input, 20⟩, ⟨101, IOType.Input, 20⟩]).2 = [⟨IOType.Input, 1, 20⟩] ∧
    ((101 : Int) - 1) / 10 = 10 ∧ ¬ ((10 : Int) - 1 ≤ 1) := by
  decide

/-- C9, amended: on an open dumper fed a stream of observations of one level,
with positive, strictly increasing timestamps, consecutive observations at most
`H = MaxPrintDelay` apart, and first and last timestamps `T` apart, the number
of lines written lies between `floor(T / H)` and `2 * floor(T / H) + 1`. -/
theorem C9_heartbeat_count_bounds (P : Decls) (config : Config) (fp : Stream)
    (obs : List Observation) (L : Int) (first last : Observation)
    (hsame : ∀ o ∈ obs, o.val = L)
    (hpos : ∀ o ∈ obs, 0 < o.ts) (hinc : obs.Pairwise (fun a b => a.ts < b.ts))
    (hgap : obs.Chain' (fun a b => b.ts - a.ts ≤ P.MaxPrintDelay))
    (hfirst : obs.head? = some first) (hlast : obs.getLast? = some last) :
    (last.ts - first.ts) / P.MaxPrintDelay ≤
        ((observe_all P (FileDumper.opened config fp) obs).2.length : Int) ∧
      ((observe_all P (FileDumper.opened config fp) obs).2.length : Int) ≤
        2 * ((last.ts - first.ts) / P.MaxPrintDelay) + 1 := by
  have he := observe_all_last_ts P (FileDumper.opened config fp) obs last hlast
  cases obs with
  | nil => simp at hfirst
  | cons o rest =>
    simp only [List.head?_cons, Option.some.injEq] at hfirst
    subst hfirst
    have ho : 0 < o.ts := hpos o (by simp)
    have hoL : o.val = L := hsame o (by simp)
    have hch := chain_of_increasing (o :: rest) hpos hinc
    simp only [List.map_cons, List.chain_cons] at hch
    have hsame' : ∀ x ∈ rest, x.val = L := fun x hx => hsame x (by simp [hx])
    simp only [observe_all] at he ⊢
    rw [opened_first_step P config fp o ho] at he ⊢
    cases rest with
    | nil =>
      simp only [List.getLast?_singleton, Option.some.injEq] at hlast
      subst hlast
      simp only [observe_all, sub_self, Int.zero_ediv]
      split_ifs <;> simp
    | cons o2 rest2 =>
      have hD : 0 < P.MaxPrintDelay := by
        have h1 := (List.chain'_cons.mp hgap).1
        have h2 := (List.pairwise_cons.mp hinc).1 o2 (by simp)
        omega
      have hgapch := chain_increasing_within P.MaxPrintDelay (o2 :: rest2) o.ts hch.2
        (by
          intro x hx
          simp only [List.head?_cons, Option.mem_def, Option.some.injEq] at hx
          subst hx
          exact (List.chain'_cons.mp hgap).1)
        (List.chain'_cons.mp hgap).2
      by_cases hL0 : o.val = 0
      · rw [if_pos hL0] at he ⊢
        simp only [List.nil_append] at he ⊢
        have hup := (same_level_run_upper P L (o2 :: rest2) ⟨config, some fp, 0, o.ts, o.val⟩
          hoL (by simp only; omega) hsame' hch.2).2
        have hlow := same_level_run_lower_unprinted P L o.ts (o2 :: rest2)
          ⟨config, some fp, 0, o.ts, o.val⟩ hoL rfl ho (le_refl _) (by simp only; omega)
          hsame' hgapch
        simp only at hup hlow
        rw [he] at hup hlow
        generalize (observe_all P ⟨config, some fp, 0, o.ts, o.val⟩ (o2 :: rest2)).2.length
          = n at hup hlow ⊢
        have h1 : ((n / 2 : Nat) : Int) ≤ (last.ts - o.ts) / P.MaxPrintDelay :=
          Int.le_ediv_of_mul_le hD (by linarith)
        have h2 : (last.ts - o.ts) / P.MaxPrintDelay < (n : Int) + 1 :=
          Int.ediv_lt_of_lt_mul hD hlow
        omega
      · rw [if_neg hL0] at he ⊢
        simp only [List.singleton_append, List.length_cons] at he ⊢
        have hup := (same_level_run_upper P L (o2 :: rest2)
          ⟨config, some fp, o.ts, o.ts, o.val⟩ hoL (le_refl _) hsame' hch.2).1
        have hlow := same_level_run_lower P L (o2 :: rest2)
          ⟨config, some fp, o.ts, o.ts, o.val⟩ hoL ho (by simp only; omega) hsame' hgapch
        simp only at hup hlow
        rw [he] at hup hlow
        generalize (observe_all P ⟨config, some fp, o.ts, o.ts, o.val⟩ (o2 :: rest2)).2.length
          = n at hup hlow ⊢
        have h1 : (((n + 1) / 2 : Nat) : Int) ≤ (last.ts - o.ts) / P.MaxPrintDelay :=
          Int.le_ediv_of_mul_le hD (by linarith)
        have h2 : (last.ts - o.ts) / P.MaxPrintDelay ≤ (n : Int) + 1 :=
          Int.ediv_le_of_le_mul hD hlow
        push_cast
        omega

/-- C9 (amended) on the stream of level 20 stamped 1, 8, 15, 22, 29 with
`MaxPrintDelay = 10`: T = 28, floor(T / H) = 2, and four lines are written,
between 2 and 5. -/
theorem C9_heartbeat_count_bounds_witness :
    (((29 : Int) - 1) / 10 ≤
        ((observe_all ⟨16, 10⟩ (FileDumper.opened ⟨1, 1⟩ Stream.stdout)
          [⟨1, IOType.Input, 20⟩, ⟨8, IOType.Input, 20⟩, ⟨15, IOType.Input, 20⟩,
            ⟨22, IOType.Input, 20⟩, ⟨29, IOType.Input, 20⟩]).2.length : Int) ∧
      ((observe_all ⟨16, 10⟩ (FileDumper.opened ⟨1, 1⟩ Stream.stdout)
          [⟨1, IOType.Input, 20⟩, ⟨8, IOType.Input, 20⟩, ⟨15, IOType.Input, 20⟩,
            ⟨22, IOType.Input, 20⟩, ⟨29, IOType.Input, 20⟩]).2.length : Int) ≤
        2 * (((29 : Int) - 1) / 10) + 1) ∧
    (observe_all ⟨16, 10⟩ (FileDumper.opened ⟨1, 1⟩ Stream.stdout)
        [⟨1, IOType.Input, 20⟩, ⟨8, IOType.Input, 20⟩, ⟨15, IOType.Input, 20⟩,
          ⟨22, IOType.Input, 20⟩, ⟨29, IOType.Input, 20⟩]).2.length = 4 :=
  ⟨C9_heartbeat_count_bounds ⟨16, 10⟩ ⟨1, 1⟩ Stream.stdout
    [⟨1, IOType.Input, 20⟩, ⟨8, IOType.Input, 20⟩, ⟨15, IOType.Input, 20⟩,
      ⟨22, IOType.Input, 20⟩, ⟨29, IOType.Input, 20⟩] 20 ⟨1, IOType.Input, 20⟩
    ⟨29, IOType.Input, 20⟩ (by decide) (by decide) (by decide) (by simp) (by decide)
    (by decide), by decide⟩

/-! ## C10: a level transition -/

/-- C10, as stated, fails: on the stream `(1, 20), (2, 30)` the second
observation changes the level, but its step writes one line only, `2 30`: the
preceding observation `(1, 20)` was already written in its own step, so the
first `print_last_maybe_` call returns early. -/
theorem C10_counterexample :
    (observe_all ⟨16, 10⟩ (FileDumper.opened ⟨1, 1⟩ Stream.stdout) [⟨1, IOType.Input, 20⟩])
      = (⟨⟨1, 1⟩, some Stream.stdout, 1, 1, 20⟩, [⟨IOType.Input, 1, 20⟩]) ∧
    (subframe_update ⟨16, 10⟩ ⟨⟨1, 1⟩, some Stream.stdout, 1, 1, 20⟩ 2 30 IOType.Input).2
      = [⟨IOType.Input, 2, 30⟩] := by
  decide

/-- C10, amended: on an open dumper fed a stream with positive, strictly
increasing timestamps, processing an observation `o` whose level differs from
that of the preceding observation `p` writes the line of `o` last, preceded by
the line of `p` exactly when `p` was not written in its own step, that is when
`p` did not itself change the level: two lines (closing point, then opening
point) after an unchanged `p`, one line (the opening point) after a `p` that was
itself a transition. Both lines carry the label of `o`. -/
theorem C10_transition_lines (P : Decls) (config : Config) (fp : Stream)
    (obs pre post : List Observation) (p o : Observation)
    (hpos : ∀ o ∈ obs, 0 < o.ts) (hinc : obs.Pairwise (fun a b => a.ts < b.ts))
    (hsplit : obs = pre ++ p :: o :: post) (hchg : o.val ≠ p.val) :
    (subframe_update P (observe_all P (FileDumper.opened config fp) (pre ++ [p])).1
        o.ts o.val o.type).2 =
      (if p.val ≠ (observe_all P (FileDumper.opened config fp) pre).1.last_val_ then []
        else [⟨o.type, p.ts, p.val⟩]) ++ [⟨o.type, o.ts, o.val⟩] := by
  obtain ⟨h1, h2, h3⟩ := state_before_observation P config fp obs pre (o :: post) p hpos hinc
    hsplit
  have hsplit2 : obs = (pre ++ [p]) ++ o :: post := by rw [hsplit]; simp
  obtain ⟨k1, k2, k3⟩ := state_before_observation P config fp obs (pre ++ [p]) post o hpos hinc
    hsplit2
  obtain ⟨e1, e2, e3⟩ := observe_all_snoc_fields P (FileDumper.opened config fp) pre p
  have hlp : (observe_all P (FileDumper.opened config fp) (pre ++ [p])).1.last_printed_ts_ =
      p.ts ↔ p.val ≠ (observe_all P (FileDumper.opened config fp) pre).1.last_val_ := by
    rw [e1, subframe_update_eq]
    simp only [opens]
    split_ifs <;> constructor <;> intro h <;> omega
  rw [subframe_update_eq]
  simp only [e2, e3]
  have hop : opens P (observe_all P (FileDumper.opened config fp) (pre ++ [p])).1 o.ts o.val := by
    unfold opens
    rw [e3]
    refine ⟨hchg, by omega, ?_⟩
    split_ifs <;> omega
  have hcl : closes P (observe_all P (FileDumper.opened config fp) (pre ++ [p])).1 o.ts o.val ↔
      ¬ p.val ≠ (observe_all P (FileDumper.opened config fp) pre).1.last_val_ := by
    rw [← hlp]
    unfold closes
    rw [e2, e3]
    constructor
    · rintro ⟨-, -, h⟩; exact h
    · intro h; exact ⟨Or.inl hchg, by omega, h⟩
  rw [if_pos hop]
  by_cases hp : p.val ≠ (observe_all P (FileDumper.opened config fp) pre).1.last_val_
  · rw [if_pos hp, if_neg (fun h => (hcl.mp h) hp)]
  · rw [if_neg hp, if_pos (hcl.mpr hp)]

/-- C10 (amended) on the stream `(1, 20), (8, 20), (9, 30)`: the observation
`(8, 20)` left the level unchanged, so `(9, 30)` writes `8 20` then `9 30`. -/
theorem C10_transition_lines_witness :
    (subframe_update ⟨16, 10⟩
        (observe_all ⟨16, 10⟩ (FileDumper.opened ⟨1, 1⟩ Stream.stdout)
          ([⟨1, IOType.Input, 20⟩] ++ [⟨8, IOType.Input, 20⟩])).1 9 30 IOType.Input).2 =
      (if (20 : Int) ≠ (observe_all ⟨16, 10⟩ (FileDumper.opened ⟨1, 1⟩ Stream.stdout)
          [⟨1, IOType.Input, 20⟩]).1.last_val_ then []
        else [⟨IOType.Input, 8, 20⟩]) ++ [⟨IOType.Input, 9, 30⟩] ∧
    (subframe_update ⟨16, 10⟩
        (observe_all ⟨16, 10⟩ (FileDumper.opened ⟨1, 1⟩ Stream.stdout)
          [⟨1, IOType.Input, 20⟩, ⟨8, IOType.Input, 20⟩]).1 9 30 IOType.Input).2 =
      [⟨IOType.Input, 8, 20⟩, ⟨IOType.Input, 9, 30⟩] :=
  ⟨C10_transition_lines ⟨16, 10⟩ ⟨1, 1⟩ Stream.stdout
    [⟨1, IOType.Input, 20⟩, ⟨8, IOType.Input, 20⟩, ⟨9, IOType.Input, 30⟩]
    [⟨1, IOType.Input, 20⟩] [] ⟨8, IOType.Input, 20⟩ ⟨9, IOType.Input, 30⟩
    (by decide) (by decide) (by decide) (by decide), by decide⟩

/-! ## C11: quantisation is idempotent -/

/-- C11: for every sample value `x` (in the range of `sample_t`) and every
rounding step `r ≥ 1`, the quantisation of lines 83-90 applied to the quantised
value of `x` returns that same value, which is again a sample value. -/
theorem C11_quantisation_idempotent (bits r : Nat) (x : Int) (hbits : 1 ≤ bits)
    (hr : 1 ≤ r) (hx : in_sample_range bits x) :
    subframe_new_val bits r (subframe_new_val bits r x) = subframe_new_val bits r x ∧
    in_sample_range bits (subframe_new_val bits r x) := by
  have hin := subframe_new_val_in_range bits r x hbits hx
  refine ⟨?_, hin⟩
  rw [subframe_new_val_eq bits r _ hbits hin]
  have hval := subframe_new_val_eq bits r x hbits hx
  have hk0 : x = 0 → x.natAbs / r * r = 0 := by
    intro h; subst h; simp
  have habs : (subframe_new_val bits r x).natAbs = x.natAbs / r * r := by
    rw [hval]; exact natAbs_sign_mul x _ hk0
  rw [habs, Nat.mul_div_cancel _ (by omega : 0 < r)]
  by_cases hk : x.natAbs / r * r = 0
  · rw [hval, hk]; simp
  · have hx0 : x ≠ 0 := by
      intro h; exact hk (hk0 h)
    have hsign : (subframe_new_val bits r x).sign = x.sign := by
      rw [hval, Int.sign_mul, Int.sign_sign]
      have hpos : (0 : Int) < ((x.natAbs / r * r : Nat) : Int) := by omega
      rw [Int.sign_eq_one_of_pos hpos, mul_one]
    rw [hsign, ← hval]

/-- C11 on 16-bit samples with rounding step 10: -57 is quantised to -50, and
-50 to -50. -/
theorem C11_quantisation_idempotent_witness :
    (subframe_new_val 16 10 (subframe_new_val 16 10 (-57)) = subframe_new_val 16 10 (-57) ∧
      in_sample_range 16 (subframe_new_val 16 10 (-57))) ∧
    subframe_new_val 16 10 (-57) = -50 ∧ subframe_new_val 16 10 (-50) = -50 :=
  ⟨C11_quantisation_idempotent 16 10 (-57) (by decide) (by decide) (by decide),
    by decide, by decide⟩

/-! ## C12: quantisation is sign-symmetric -/

/-- C12: for every rounding step `r ≥ 1` and every sample value `x` whose
negation is also a sample value, the quantised value of `-x` is the negation of
the quantised value of `x`, and both have magnitude `|x| / r * r` (floor
division). -/
theorem C12_quantisation_sign_symmetric (bits r : Nat) (x : Int) (hbits : 1 ≤ bits)
    (_hr : 1 ≤ r) (hx : in_sample_range bits x) (hnx : in_sample_range bits (-x)) :
    subframe_new_val bits r (-x) = -subframe_new_val bits r x ∧
    (subframe_new_val bits r x).natAbs = x.natAbs / r * r ∧
    (subframe_new_val bits r (-x)).natAbs = x.natAbs / r * r := by
  have hk0 : x = 0 → x.natAbs / r * r = 0 := by
    intro h; subst h; simp
  have h1 := subframe_new_val_eq bits r x hbits hx
  have h2 := subframe_new_val_eq bits r (-x) hbits hnx
  rw [Int.natAbs_neg, Int.sign_neg] at h2
  refine ⟨?_, ?_, ?_⟩
  · rw [h1, h2]; ring
  · rw [h1]; exact natAbs_sign_mul x _ hk0
  · rw [h2, neg_mul, Int.natAbs_neg]; exact natAbs_sign_mul x _ hk0

/-- C12 on 16-bit samples with rounding step 10: 57 is quantised to 50 and -57
to -50. -/
theorem C12_quantisation_sign_symmetric_witness :
    (subframe_new_val 16 10 (-57) = -subframe_new_val 16 10 57 ∧
      (subframe_new_val 16 10 57).natAbs = (57 : Int).natAbs / 10 * 10 ∧
      (subframe_new_val 16 10 (-57)).natAbs = (57 : Int).natAbs / 10 * 10) ∧
    subframe_new_val 16 10 57 = 50 ∧ subframe_new_val 16 10 (-57) = -50 :=
  ⟨C12_quantisation_sign_symmetric 16 10 57 (by decide) (by decide) (by decide) (by decide),
    by decide, by decide⟩

/-! ## C13: writing to a sink that is not open -/

/-- C13: `write` on a dumper whose sink is not open is a no-op for every frame:
it returns with no line written and the dumper unchanged, so `last_val_`,
`last_ts_` and `last_printed_ts_` keep their values. This holds for a dumper
never opened (the initial members), for a dumper after `close` (which itself
leaves the three fields alone), and for every state with `fp_` null. -/
theorem C13_write_without_sink_is_noop (P : Decls) (config : Config) (d : FileDumper)
    (frame : Frame) :
    write P (FileDumper.init config) frame = some (FileDumper.init config, []) ∧
    write P (FileDumper.close d) frame = some (FileDumper.close d, []) ∧
    ((FileDumper.close d).last_val_ = d.last_val_ ∧
      (FileDumper.close d).last_ts_ = d.last_ts_ ∧
      (FileDumper.close d).last_printed_ts_ = d.last_printed_ts_) ∧
    (d.fp_ = none → write P d frame = some (d, [])) := by
  have hclosed : (FileDumper.close d).fp_ = none := by
    unfold FileDumper.close
    split_ifs with h
    · rfl
    · exact not_not.mp h
  refine ⟨?_, ?_, ?_, ?_⟩
  · simp [write, FileDumper.init]
  · unfold write
    rw [if_pos hclosed]
  · unfold FileDumper.close
    split_ifs <;> exact ⟨rfl, rfl, rfl⟩
  · intro h
    unfold write
    rw [if_pos h]

/-! ## C14: a failed `open` -/

/-- C14, as stated, fails: a dumper bound to the standard output, with last line
at 1 and pending observation `(8, 20)`, on which `open("/root/forbidden")` fails
(`fopen` returns null), is left with no destination: `fp_` was overwritten with
the null pointer. The call returns `false` and the three level/timestamp fields
are untouched. -/
theorem C14_counterexample :
    FileDumper.open (fun _ => none) ⟨⟨1, 1⟩, some Stream.stdout, 1, 8, 20⟩ "/root/forbidden"
      = (⟨⟨1, 1⟩, none, 1, 8, 20⟩, false) ∧
    (FileDumper.open (fun _ => none) ⟨⟨1, 1⟩, some Stream.stdout, 1, 8, 20⟩
        "/root/forbidden").1.fp_ ≠ some Stream.stdout := by
  decide

/-- C14, amended: for every dumper state, when `open(filename)` cannot open the
file (`filename` is not "-" and `fopen` returns null) it returns `false` and
leaves `last_val_`, `last_ts_`, `last_printed_ts_` and the configuration as they
were; a dumper that had no destination bound is left unchanged altogether. -/
theorem C14_failed_open (fopen : String → Option Stream) (d : FileDumper)
    (filename : String) (hname : filename ≠ "-") (hnull : fopen filename = none) :
    (FileDumper.open fopen d filename).2 = false ∧
    (FileDumper.open fopen d filename).1.last_val_ = d.last_val_ ∧
    (FileDumper.open fopen d filename).1.last_ts_ = d.last_ts_ ∧
    (FileDumper.open fopen d filename).1.last_printed_ts_ = d.last_printed_ts_ ∧
    (FileDumper.open fopen d filename).1.config_ = d.config_ ∧
    (d.fp_ = none → (FileDumper.open fopen d filename).1 = d) := by
  have h : FileDumper.open fopen d filename = ({ d with fp_ := none }, false) := by
    simp only [FileDumper.open, if_neg hname, hnull, if_true]
  rw [h]
  refine ⟨rfl, rfl, rfl, rfl, rfl, ?_⟩
  intro hfp
  obtain ⟨cfg, fp, lp, lt, lv⟩ := d
  simp only at hfp
  subst hfp
  rfl

/-- C14 (amended) on a dumper never opened: `open("/root/forbidden")` with
`fopen` failing returns `false` and leaves the initial members. -/
theorem C14_failed_open_witness :
    FileDumper.open (fun _ => none) (FileDumper.init ⟨1, 1⟩) "/root/forbidden"
      = (FileDumper.init ⟨1, 1⟩, false) :=
  Prod.ext
    ((C14_failed_open (fun _ => none) (FileDumper.init ⟨1, 1⟩) "/root/forbidden"
      (by decide) rfl).2.2.2.2.2 rfl)
    (C14_failed_open (fun _ => none) (FileDumper.init ⟨1, 1⟩) "/root/forbidden"
      (by decide) rfl).1

/-! ## C15: the text of a line -/

/-- C15: every line `print_last_maybe_` writes is the text made of the direction
label (`in` for `Input`, `out` for `Output`), one space, the timestamp
`(unsigned long)last_ts_` in decimal, one space, the level `(long)last_val_` in
decimal with a minus sign when negative, and a newline; the two casts change
nothing for a non-negative timestamp and a level that fit `long`; and the text is
one line with exactly two spaces: a newline at the end and nowhere else. -/
theorem C15_line_text (long_bits : Nat) (d : FileDumper) (type : IOType) (l : Line)
    (hl : l ∈ (print_last_maybe_ d type).2) :
    Line.text long_bits l =
      type.label ++ " " ++ toString (to_ulong long_bits d.last_ts_) ++ " " ++
        toString (to_long long_bits d.last_val_) ++ "\n" ∧
    (1 ≤ long_bits → 0 ≤ d.last_ts_ → d.last_ts_ < 2 ^ long_bits →
      in_sample_range long_bits d.last_val_ →
      ((to_ulong long_bits d.last_ts_ : Nat) : Int) = d.last_ts_ ∧
        to_long long_bits d.last_val_ = d.last_val_) ∧
    ∃ body : List Char,
      (Line.text long_bits l).data = body ++ [Char.ofNat 10] ∧
      Char.ofNat 10 ∉ body ∧ body.count (Char.ofNat 32) = 2 := by
  obtain ⟨rfl, -, -⟩ := print_last_maybe_line d type l hl
  refine ⟨line_text_eq long_bits type _ _, ?_, line_text_one_line long_bits type _ _⟩
  intro hbits h0 hlt hval
  refine ⟨?_, to_sample_of_in_range long_bits _ hbits hval⟩
  unfold to_ulong
  rw [Int.emod_eq_of_lt h0 hlt]
  exact Int.toNat_of_nonneg h0

/-- C15 on direction `Output`, timestamp 1000, level -50, with a 64-bit `long`:
the line is `out 1000 -50` followed by a newline. -/
theorem C15_line_text_witness :
    (print_last_maybe_ ⟨⟨1, 1⟩, some Stream.stdout, 0, 1000, -50⟩ IOType.Output).2
      = [⟨IOType.Output, 1000, -50⟩] ∧
    Line.text 64 ⟨IOType.Output, 1000, -50⟩ = "out 1000 -50\n" :=
  ⟨by decide,
    ((C15_line_text 64 ⟨⟨1, 1⟩, some Stream.stdout, 0, 1000, -50⟩ IOType.Output
      ⟨IOType.Output, 1000, -50⟩ (by decide)).1).trans (by decide)⟩

/-! ## C16: one state for both directions -/

/-- C16: for every dumper state and every observation `(ts, new_val)`, lines
92-103 of `write_subframe_` end in the same state (`last_val_`, `last_ts_`,
`last_printed_ts_`, and the rest) and write lines of the same number, timestamps
and levels whether the direction is `Input` or `Output`; the direction only
selects the label of every line written; and so it is for `write_subframe_` on
every window. -/
theorem C16_direction_selects_label_only (P : Decls) (d : FileDumper) (ts new_val : Int) :
    (subframe_update P d ts new_val IOType.Input).1 =
      (subframe_update P d ts new_val IOType.Output).1 ∧
    (subframe_update P d ts new_val IOType.Input).2.map (fun l => (l.ts, l.val)) =
      (subframe_update P d ts new_val IOType.Output).2.map (fun l => (l.ts, l.val)) ∧
    (subframe_update P d ts new_val IOType.Input).2.length =
      (subframe_update P d ts new_val IOType.Output).2.length ∧
    (∀ type : IOType, ∀ l ∈ (subframe_update P d ts new_val type).2, l.type = type) ∧
    ∀ (buf : List Int) (bufsz : Nat),
      (write_subframe_ P d ts buf bufsz IOType.Input).map
          (fun r => (r.1, r.2.map (fun l => (l.ts, l.val)))) =
        (write_subframe_ P d ts buf bufsz IOType.Output).map
          (fun r => (r.1, r.2.map (fun l => (l.ts, l.val)))) := by
  have hstate : (subframe_update P d ts new_val IOType.Input).1 =
      (subframe_update P d ts new_val IOType.Output).1 := by
    simp only [subframe_update_eq]
  have hlines : ∀ v : Int,
      (subframe_update P d ts v IOType.Input).2.map (fun l => (l.ts, l.val)) =
        (subframe_update P d ts v IOType.Output).2.map (fun l => (l.ts, l.val)) := by
    intro v
    simp only [subframe_update_eq]
    split_ifs <;> rfl
  refine ⟨hstate, hlines new_val, ?_, ?_, ?_⟩
  · have h := congrArg List.length (hlines new_val)
    simpa using h
  · exact fun type => subframe_update_line_type P d ts new_val type
  · intro buf bufsz
    unfold write_subframe_
    cases subframe_level P d.config_ buf bufsz with
    | none => rfl
    | some v =>
      simp only [Option.map_some']
      have h1 : (subframe_update P d ts v IOType.Input).1 =
          (subframe_update P d ts v IOType.Output).1 := by
        simp only [subframe_update_eq]
      rw [h1, hlines v]

/-! ## C17: the windows of a frame -/

/-- C17: on an open dumper with window size `w = dump_frame ≥ 1`, `write` on a
frame of `n` samples hands to `write_subframe_`, in order, exactly the
`ceil(n / w) = (n + w - 1) / w` windows `k = 0, 1, ...`: window `k` starts at
offset `k * w`, is stamped `hw_sample_time(k * w)` and has
`min(w, n - k * w)` samples; and `write` returns when the rounding step is at
least 1. Every window starts inside the frame, has at least one sample and lies
inside the buffer; every window but the last has `w` samples and the next one
starts where it ends; the last one ends at `n`; and every sample index of the
frame lies in exactly one window. -/
theorem C17_write_windows (P : Decls) (d : FileDumper) (frame : Frame)
    (hopen : d.fp_ ≠ none) (hw : 1 ≤ d.config_.dump_frame) :
    write P d frame =
      process_windows P frame
        ((List.range ((frame.size + d.config_.dump_frame - 1) / d.config_.dump_frame)).map
          (fun k => k * d.config_.dump_frame)) d ∧
    (1 ≤ d.config_.dump_rounding → ∃ r, write P d frame = some r) ∧
    (∀ k : Nat, k < (frame.size + d.config_.dump_frame - 1) / d.config_.dump_frame →
      k * d.config_.dump_frame < frame.size ∧
      1 ≤ min d.config_.dump_frame (frame.size - k * d.config_.dump_frame) ∧
      min d.config_.dump_frame (frame.size - k * d.config_.dump_frame) ≤
        (frame.data.drop (k * d.config_.dump_frame)).length ∧
      (k + 1 < (frame.size + d.config_.dump_frame - 1) / d.config_.dump_frame →
        min d.config_.dump_frame (frame.size - k * d.config_.dump_frame) =
            d.config_.dump_frame ∧
          (k + 1) * d.config_.dump_frame = k * d.config_.dump_frame +
            min d.config_.dump_frame (frame.size - k * d.config_.dump_frame)) ∧
      (k + 1 = (frame.size + d.config_.dump_frame - 1) / d.config_.dump_frame →
        k * d.config_.dump_frame +
          min d.config_.dump_frame (frame.size - k * d.config_.dump_frame) = frame.size)) ∧
    (∀ i : Nat, i < frame.size →
      ∃! k : Nat, k < (frame.size + d.config_.dump_frame - 1) / d.config_.dump_frame ∧
        k * d.config_.dump_frame ≤ i ∧
        i < k * d.config_.dump_frame +
          min d.config_.dump_frame (frame.size - k * d.config_.dump_frame)) := by
  generalize hwdef : d.config_.dump_frame = w at hw ⊢
  generalize hndef : frame.size = n
  have hwrite : write P d frame = write_loop P frame frame.size 0 d := by
    unfold write
    rw [if_neg hopen]
  refine ⟨?_, ?_, ?_, ?_⟩
  · rw [hwrite, write_loop_windows P frame w hw frame.size 0 d hwdef (by omega), hndef]
    unfold window_offsets
    simp only [Nat.sub_zero, Nat.zero_add]
  · intro hr
    obtain ⟨r, h, -, -⟩ := write_loop_returns P frame frame.size 0 d (by omega) hr (by omega)
    exact ⟨r, by rw [hwrite]; exact h⟩
  · intro k hk
    have hlt : k * w < n := (window_index_lt n w k hw).mp hk
    have hsucc : (k + 1) * w = k * w + w := by rw [Nat.add_mul, Nat.one_mul]
    refine ⟨hlt, by omega, ?_, ?_, ?_⟩
    · rw [List.length_drop]
      have : frame.data.length = n := hndef
      omega
    · intro hk1
      have h1 : (k + 1) * w < n := (window_index_lt n w (k + 1) hw).mp hk1
      constructor <;> omega
    · intro hk1
      have h1 : ¬ (k + 1) * w < n := by
        rw [← window_index_lt n w (k + 1) hw]
        omega
      omega
  · intro i hi
    have hdm := Nat.div_add_mod i w
    have hml := Nat.mod_lt i (by omega : 0 < w)
    have hcomm : i / w * w = w * (i / w) := Nat.mul_comm _ _
    refine ⟨i / w, ⟨?_, by omega, by omega⟩, ?_⟩
    · rw [window_index_lt n w (i / w) hw]
      omega
    · rintro k ⟨-, hlo, hhi⟩
      symm
      apply Nat.div_eq_of_lt_le hlo
      rw [Nat.succ_mul]
      omega

/-- C17 on a frame of 5 samples with window size 2: three windows, at offsets 0,
2 and 4, the last one of a single sample; with rounding step 1 and timestamps
`5 + off` the levels 2, 4, 5 are written at 5, 7, 9. -/
theorem C17_write_windows_witness :
    write ⟨16, 10⟩ (FileDumper.opened ⟨2, 1⟩ Stream.stdout)
        ⟨IOType.Output, [1, 2, 3, 4, 5], fun k => 5 + k⟩ =
      process_windows ⟨16, 10⟩ ⟨IOType.Output, [1, 2, 3, 4, 5], fun k => 5 + k⟩ [0, 2, 4]
        (FileDumper.opened ⟨2, 1⟩ Stream.stdout) ∧
    (write ⟨16, 10⟩ (FileDumper.opened ⟨2, 1⟩ Stream.stdout)
        ⟨IOType.Output, [1, 2, 3, 4, 5], fun k => 5 + k⟩).map (fun r => r.2) =
      some [⟨IOType.Output, 5, 2⟩, ⟨IOType.Output, 7, 4⟩, ⟨IOType.Output, 9, 5⟩] :=
  ⟨(C17_write_windows ⟨16, 10⟩ (FileDumper.opened ⟨2, 1⟩ Stream.stdout)
      ⟨IOType.Output, [1, 2, 3, 4, 5], fun k => 5 + k⟩ (by decide) (by decide)).1,
    by decide⟩

/-! ## C18: the lines are a subsequence of the observations -/

/-- C18: for every sequence of observations processed from the initial state,
the `(timestamp, level)` pairs of the lines written, in order, are a subsequence
of the observed `(timestamp, level)` pairs: lines follow the observation order
and no observation is written more than once, so there are at most as many
lines as observations; every line reports a pair that was observed; and each
step writes at most two lines. -/
theorem C18_lines_subsequence_of_observations (P : Decls) (config : Config) (fp : Stream)
    (obs : List Observation) :
    ((observe_all P (FileDumper.opened config fp) obs).2.map (fun l => (l.ts, l.val))).Sublist
        (obs.map (fun o => (o.ts, o.val))) ∧
    (observe_all P (FileDumper.opened config fp) obs).2.length ≤ obs.length ∧
    (∀ l ∈ (observe_all P (FileDumper.opened config fp) obs).2,
      ∃ o ∈ obs, l.ts = o.ts ∧ l.val = o.val) ∧
    (∀ (d : FileDumper) (ts new_val : Int) (type : IOType),
      (subframe_update P d ts new_val type).2.length ≤ 2) := by
  have hsub := (observe_all_sublist P obs (FileDumper.opened config fp)).2 (Or.inl rfl)
  refine ⟨hsub, ?_, ?_, fun d ts v type => subframe_update_length_le P d ts v type⟩
  · have h := hsub.length_le
    simpa using h
  · intro l hl
    have hmem : (l.ts, l.val) ∈ obs.map (fun o => (o.ts, o.val)) :=
      hsub.subset (List.mem_map.mpr ⟨l, hl, rfl⟩)
    obtain ⟨o, ho, heq⟩ := List.mem_map.mp hmem
    simp only [Prod.mk.injEq] at heq
    exact ⟨o, ho, heq.1.symm, heq.2.symm⟩

/-! ## C19: the label of a line -/

/-- C19: every line written while an observation of direction `type` is
processed carries the label of `type`, whichever observation recorded the
pending timestamp and level. On a freshly opened dumper, the input observation
`(5, 0)` followed by the output observation `(6, 7)` of a different level
writes the input observation's timestamp and level with the label `out`: the
lines are `out 5 0` and `out 6 7`. -/
theorem C19_label_is_current_direction (P : Decls) (d : FileDumper) (ts new_val : Int)
    (type : IOType) :
    (∀ l ∈ (subframe_update P d ts new_val type).2, l.type = type) ∧
    (observe_all P (FileDumper.opened ⟨1, 1⟩ Stream.stdout)
        [⟨5, IOType.Input, 0⟩, ⟨6, IOType.Output, 7⟩]).2 =
      [⟨IOType.Output, 5, 0⟩, ⟨IOType.Output, 6, 7⟩] ∧
    Line.text 64 ⟨IOType.Output, 5, 0⟩ = "out 5 0\n" := by
  refine ⟨?_, ?_, by decide⟩
  · exact subframe_update_line_type P d ts new_val type
  · simp only [observe_all]
    rw [subframe_update_eq, subframe_update_eq]
    simp [closes, opens, FileDumper.opened, FileDumper.init]

/-! ## C20: the timestamp 0 -/

/-- C20: in every dumper state whose `last_ts_` is 0, `print_last_maybe_` writes
nothing and returns the state unchanged; an observation with timestamp 0 writes
no line of its own in its step, whatever its level; and no line written by any
run of observations from any state carries the timestamp 0, so an observation
recorded with timestamp 0 is never emitted, whatever observations follow. -/
theorem C20_timestamp_zero_never_emitted (P : Decls) (d : FileDumper) (type : IOType)
    (new_val : Int) (obs : List Observation) :
    (d.last_ts_ = 0 → print_last_maybe_ d type = (d, [])) ∧
    (∀ l ∈ (subframe_update P d 0 new_val type).2, l ≠ ⟨type, 0, new_val⟩) ∧
    (∀ l ∈ (observe_all P d obs).2, l.ts ≠ 0) := by
  refine ⟨?_, ?_, observe_all_ts_ne_zero P obs d⟩
  · intro h
    unfold print_last_maybe_
    rw [if_pos h]
  · intro l hl heq
    have h := observe_all_ts_ne_zero P [⟨0, type, new_val⟩] d l (by simpa [observe_all] using hl)
    rw [heq] at h
    exact h rfl

end signal_estimator
